import Mathlib

/-!
Verification of the MyEPG repository's core pipeline against its
natural-language specification.

The development shallowly embeds the record-level behaviour of

* `filter_epg.py`  — `load_tvg_ids`, `filter_epg_stream` (streaming filter);
* `update_epg.py`  — `merge_epgs` (multi-feed merge with channel dedup);
* `generate_static_mapping.py` — `match_channels` (fuzzy channel matcher
  built on rapidfuzz's `token_sort_ratio`);
* `merge_epg.py`   — `optimize_epg_content` (content-optimization pass).

XML streams are modelled as lists of typed records (the two record-bearing
element kinds plus unrecognized elements and a malformed-input marker),
matching what `xml.etree.ElementTree.iterparse` hands to the Python code.
Byte-level serialization is abstracted to output records that keep exactly
the data the code writes.  Real-number similarity scores are represented
exactly as numerator/denominator pairs of naturals.
-/

namespace EPGV

/-! ### Character/string helpers (model of the Python string primitives used) -/

/-- Model of Python `str.lower` on a character (the inputs concerned are
ASCII; codepoints 65–90 are mapped to 97–122, everything else is kept). -/
def lowerChar (c : Char) : Char :=
  if 65 ≤ c.toNat ∧ c.toNat ≤ 90 then Char.ofNat (c.toNat + 32) else c

/-- Model of Python `str.lower` on a string. -/
def lowerStr (s : String) : String := String.mk (s.data.map lowerChar)

/-- Model of Python `str.lower` on a character list. -/
def lowerL (l : List Char) : List Char := l.map lowerChar

/-- Whitespace test of Python's `str.strip` / regex `\s` (ASCII range). -/
def isSpc (c : Char) : Bool :=
  c = ' ' || c = '\t' || c = '\n' || c = '\r' || c = Char.ofNat 11 || c = Char.ofNat 12

/-- Remove leading and trailing whitespace from a character list
(model of Python `str.strip()`). -/
def stripEnds (l : List Char) : List Char :=
  ((l.dropWhile isSpc).reverse.dropWhile isSpc).reverse

/-- Model of Python `str.strip()` on a string. -/
def trimStr (s : String) : String := String.mk (stripEnds s.data)

/-! ### Model of `filter_epg.py` -/

/-- One record yielded by the streaming XML parse in `filter_epg_stream`
(`ET.iterparse` with `end` events).  A `channel` record carries the value of
its `id` attribute (the Python code defaults a missing `id` to `""`); a
`programme` record carries its optional `channel` attribute.  `other` stands
for any other element; `malformed` marks the point at which the byte stream
stops being well-formed XML, where `iterparse` raises `ParseError`. -/
inductive Tok where
  | channel (id : String)
  | programme (ch : Option String)
  | other
  | malformed
deriving DecidableEq, Repr

/-- One chunk written to the gzipped output file by `filter_epg_stream`:
the XML declaration plus `<tv>` header, a serialized channel element
(identified by its original-cased id), a serialized programme element
(identified by its `channel` attribute), or the closing `</tv>`. -/
inductive Out where
  | header
  | channelElem (id : String)
  | programmeElem (ch : String)
  | footer
deriving DecidableEq, Repr

/-- Membership test of a Python dict keyed by strings (`ch in prog_counts`). -/
def hasKey (l : List (String × Nat)) (k : String) : Bool :=
  l.any (fun p => p.1 == k)

/-- Python dict assignment `d[k] = v` (insertion order preserved). -/
def setKey (l : List (String × Nat)) (k : String) (v : Nat) : List (String × Nat) :=
  if hasKey l k then l.map (fun p => if p.1 == k then (k, v) else p)
  else l ++ [(k, v)]

/-- Python dict increment `d[k] += 1` for a present key. -/
def bumpKey (l : List (String × Nat)) (k : String) : List (String × Nat) :=
  l.map (fun p => if p.1 == k then (p.1, p.2 + 1) else p)

/-- Python dict lookup `d.get(k)`. -/
def getKey (l : List (String × Nat)) (k : String) : Option Nat :=
  (l.find? (fun p => p.1 == k)).map (·.2)

/-- Python set insertion `s.add(x)` (modelled on an ordered duplicate-free list). -/
def addId (l : List String) (x : String) : List String :=
  if x ∈ l then l else l ++ [x]

/-- Running state of `filter_epg_stream`: the `prog_counts` dict, the
`kept_channel_ids` set, the chunks written to the output file so far, and
the three counters. -/
structure FState where
  prog_counts : List (String × Nat)
  kept_channel_ids : List String
  out : List Out
  total_programmes_written : Nat
  total_channels_written : Nat
  total_parsed : Nat
deriving DecidableEq, Repr

/-- One iteration of the `for event, elem in context` loop of
`filter_epg_stream`: `total_parsed` is bumped for every element; a channel
is written iff its lowercased id is in `wanted_ids_lower` (the channel then
gets a `prog_counts` entry reset to 0 and joins `kept_channel_ids`); a
programme is written iff its `channel` attribute is an exact-case key of
`prog_counts`. -/
def stepTok (wanted : List String) (s0 : FState) (t : Tok) : FState :=
  let s := { s0 with total_parsed := s0.total_parsed + 1 }
  match t with
  | Tok.channel cidRaw =>
      if lowerStr cidRaw ∈ wanted then
        { s with out := s.out ++ [Out.channelElem cidRaw],
                 kept_channel_ids := addId s.kept_channel_ids cidRaw,
                 prog_counts := setKey s.prog_counts cidRaw 0,
                 total_channels_written := s.total_channels_written + 1 }
      else s
  | Tok.programme (some c) =>
      if hasKey s.prog_counts c then
        { s with out := s.out ++ [Out.programmeElem c],
                 prog_counts := bumpKey s.prog_counts c,
                 total_programmes_written := s.total_programmes_written + 1 }
      else s
  | Tok.programme none => s
  | Tok.other => s
  | Tok.malformed => s

/-- The parse loop of `filter_epg_stream`.  It consumes records until the
stream ends (second component `true`) or the parser hits malformed input
and raises, aborting the loop (second component `false`). -/
def runLoop (wanted : List String) (s : FState) : List Tok → FState × Bool
  | [] => (s, true)
  | Tok.malformed :: _ => (s, false)
  | Tok.channel i :: rest => runLoop wanted (stepTok wanted s (Tok.channel i)) rest
  | Tok.programme c :: rest => runLoop wanted (stepTok wanted s (Tok.programme c)) rest
  | Tok.other :: rest => runLoop wanted (stepTok wanted s Tok.other) rest

/-- The result dict returned by `filter_epg_stream`. -/
structure Summary where
  channels_written : Nat
  programmes_written : Nat
  kept_channel_ids : List String
  prog_counts : List (String × Nat)
  elements_parsed : Nat
deriving DecidableEq, Repr

/-- Outcome of a run: the summary dict on success, or the propagated parse
error (carrying the parse position, counted in records) on malformed input. -/
inductive RunOutcome where
  | failed (pos : Nat)
  | ok (s : Summary)
deriving DecidableEq, Repr

/-- A completed run of `filter_epg_stream`: the sequence of chunks present
in the output file, and the outcome.  The output file is created and its
header written as soon as the run starts; on a parse error the partially
written file is left behind (without the closing tag). -/
structure RunResult where
  output : List Out
  result : RunOutcome
deriving DecidableEq, Repr

/-- State at the top of `filter_epg_stream`, after the header is written. -/
def initState : FState :=
  { prog_counts := [], kept_channel_ids := [], out := [Out.header],
    total_programmes_written := 0, total_channels_written := 0, total_parsed := 0 }

/-- The dict built at the end of `filter_epg_stream`. -/
def mkSummary (s : FState) : Summary :=
  { channels_written := s.total_channels_written,
    programmes_written := s.total_programmes_written,
    kept_channel_ids := s.kept_channel_ids,
    prog_counts := s.prog_counts,
    elements_parsed := s.total_parsed }

/-- `filter_epg_stream(gz_data, wanted_ids_lower)` over the record stream
`toks`: writes the header, filters the stream, and on success writes the
footer and returns the summary. -/
def filter_epg_stream (wanted : List String) (toks : List Tok) : RunResult :=
  match runLoop wanted initState toks with
  | (s, true) => { output := s.out ++ [Out.footer], result := RunOutcome.ok (mkSummary s) }
  | (s, false) => { output := s.out, result := RunOutcome.failed s.total_parsed }

/-- `load_tvg_ids(channel_lines)`: strips each line, drops empties, and
returns the original list plus the lowercased set. -/
def load_tvg_ids (lines : List String) : List String × List String :=
  let ids := (lines.map trimStr).filter (fun l => l ≠ "")
  (ids, (ids.map lowerStr).dedup)

/-- The record-level content of `main()` in `filter_epg.py` after the two
downloads: load the wanted ids from the channel-list lines, then filter the
EPG stream.  There is no emptiness check between the two steps. -/
def filterMain (lines : List String) (toks : List Tok) : RunResult :=
  filter_epg_stream (load_tvg_ids lines).2 toks

/-- The ids of the channel elements written to the output, in order. -/
def chansOf (l : List Out) : List String :=
  l.filterMap (fun o => match o with | Out.channelElem i => some i | _ => none)

/-- The `channel` attributes of the programme elements written to the
output, in order. -/
def progsOf (l : List Out) : List String :=
  l.filterMap (fun o => match o with | Out.programmeElem c => some c | _ => none)

/-- The ids of all channel records occurring in an input stream. -/
def channelIds (toks : List Tok) : List String :=
  toks.filterMap (fun t => match t with | Tok.channel i => some i | _ => none)

/-- Declarative channel filter of spec property P2: keep exactly the channel
records whose lowercased id is in the (lowercased) WantedSet, original
casing preserved. -/
def specChannels (wanted : List String) (toks : List Tok) : List String :=
  toks.filterMap (fun t =>
    match t with
    | Tok.channel i => if lowerStr i ∈ wanted then some i else none
    | _ => none)

/-- Declarative programme filter of spec property P2: a programme record is
kept iff its `channel` attribute equals, case-sensitively, the original id
of a channel accepted earlier in the stream (`acc` accumulates those ids). -/
def specProgrammes (wanted : List String) (acc : List String) : List Tok → List String
  | [] => []
  | Tok.channel i :: rest =>
      if lowerStr i ∈ wanted then specProgrammes wanted (i :: acc) rest
      else specProgrammes wanted acc rest
  | Tok.programme (some c) :: rest =>
      if c ∈ acc then c :: specProgrammes wanted acc rest
      else specProgrammes wanted acc rest
  | Tok.programme none :: rest => specProgrammes wanted acc rest
  | Tok.other :: rest => specProgrammes wanted acc rest
  | Tok.malformed :: rest => specProgrammes wanted acc rest

/-- Sum of the values of the `prog_counts` dict. -/
def sumVals (l : List (String × Nat)) : Nat := (l.map Prod.snd).sum

/-! ### Model of `update_epg.py` (`merge_epgs`) -/

/-- A channel element of a parsed feed: its `@id` attribute and the rest of
its content (display names, icons, …), which the merge copies verbatim. -/
structure Chan where
  id : String
  body : String
deriving DecidableEq, Repr

/-- A programme element of a parsed feed: its `channel` attribute and the
rest of its content, copied verbatim by the merge. -/
structure Prog where
  channel : String
  body : String
deriving DecidableEq, Repr

/-- One downloaded and parsed feed (`epg_dict["tv"]`): its channel list and
its programme list. -/
structure Feed where
  channels : List Chan
  programmes : List Prog
deriving DecidableEq, Repr

/-- The `for ch in epg_dict["tv"]["channel"]` loop of `merge_epgs`: a
channel is appended iff its raw `@id` is not in `seen_channels`; the id is
then added to the set. -/
def addChannels (seen : List String) (acc : List Chan) : List Chan → List String × List Chan
  | [] => (seen, acc)
  | c :: rest =>
      if c.id ∈ seen then addChannels seen acc rest
      else addChannels (seen ++ [c.id]) (acc ++ [c]) rest

/-- The per-feed loop of `merge_epgs`: channels are deduplicated through
`seen_channels`, programmes are extended unconditionally. -/
def mergeLoop (seen : List String) (chans : List Chan) (progs : List Prog) :
    List Feed → List Chan × List Prog
  | [] => (chans, progs)
  | f :: rest =>
      let sc := addChannels seen chans f.channels
      mergeLoop sc.1 sc.2 (progs ++ f.programmes) rest

/-- `merge_epgs()` over the list of parsed feeds (one per URL, in URL
order): the merged `tv` dict's channel and programme lists. -/
def merge_epgs (feeds : List Feed) : List Chan × List Prog :=
  mergeLoop [] [] [] feeds

/-- All channel elements of all feeds, in processing order. -/
def allChans (feeds : List Feed) : List Chan := (feeds.map Feed.channels).flatten

/-- All programme elements of all feeds, in processing order. -/
def allProgs (feeds : List Feed) : List Prog := (feeds.map Feed.programmes).flatten

/-- Declarative first-seen-wins deduplication keyed by the raw channel id
(glossary entry "First-seen-wins", restated for the key the code actually
uses): keep each channel whose id has not occurred earlier. -/
def specDedupFirst : List Chan → List Chan
  | [] => []
  | c :: rest => c :: specDedupFirst (rest.filter (fun d => d.id ≠ c.id))
termination_by l => l.length
decreasing_by
  simp only [List.length_cons]
  exact Nat.lt_succ_of_le (List.length_filter_le _ _)

/-! ### Model of `generate_static_mapping.py` (`match_channels`)

The similarity scores computed by rapidfuzz's `fuzz.token_sort_ratio` are
real numbers in [0, 100]; they are represented exactly as fractions of
naturals and compared by cross-multiplication. -/

/-- An exact nonnegative rational score `num / den` (`den` positive for
every score the matcher constructs). -/
structure Score where
  num : Nat
  den : Nat
deriving DecidableEq, Repr

/-- Strict comparison of two scores (`x < y` as real numbers). -/
def sLt (x y : Score) : Prop := x.num * y.den < y.num * x.den

/-- Comparison of two scores (`x ≤ y` as real numbers). -/
def sLe (x y : Score) : Prop := x.num * y.den ≤ y.num * x.den

instance (x y : Score) : Decidable (sLt x y) := Nat.decLt _ _

instance (x y : Score) : Decidable (sLe x y) := Nat.decLe _ _

/-- The real value of a score. -/
def Score.toRat (x : Score) : ℚ := (x.num : ℚ) / (x.den : ℚ)

/-- Longest-common-subsequence length on character lists, with explicit
fuel (the indel distance underlying rapidfuzz's `ratio` is
`|a| + |b| - 2·lcs`). -/
def lcsAux : Nat → List Char → List Char → Nat
  | 0, _, _ => 0
  | _ + 1, [], _ => 0
  | _ + 1, _ :: _, [] => 0
  | f + 1, a :: as, b :: bs =>
      if a = b then lcsAux f as bs + 1
      else max (lcsAux f (a :: as) bs) (lcsAux f as (b :: bs))

/-- Longest-common-subsequence length (fuel `|a| + |b|` always suffices). -/
def lcsLen (a b : List Char) : Nat := lcsAux (a.length + b.length) a b

/-- rapidfuzz `fuzz.ratio` of two prepared strings: the normalized indel
similarity `(|a| + |b| - dist) / (|a| + |b|) * 100 = 200·lcs / (|a| + |b|)`,
and 100 when both strings are empty. -/
def ratioSc (a b : List Char) : Score :=
  if a.length + b.length = 0 then ⟨100, 1⟩
  else ⟨200 * lcsLen a b, a.length + b.length⟩

/-- Split a character list on whitespace runs, dropping empty pieces
(Python `str.split()` as used by `token_sort_ratio`). -/
def splitWsL (l : List Char) : List (List Char) :=
  let p := l.foldr
    (fun c (acc : List Char × List (List Char)) =>
      if isSpc c then ([], if acc.1 = [] then acc.2 else acc.1 :: acc.2)
      else (c :: acc.1, acc.2))
    ([], [])
  if p.1 = [] then p.2 else p.1 :: p.2

/-- Lexicographic codepoint order on character lists (Python string `<`). -/
def clLe : List Char → List Char → Bool
  | [], _ => true
  | _ :: _, [] => false
  | a :: as, b :: bs => if a < b then true else if b < a then false else clLe as bs

/-- Insertion of a token into a sorted token list. -/
def insertTok (x : List Char) : List (List Char) → List (List Char)
  | [] => [x]
  | y :: rest => if clLe x y then x :: y :: rest else y :: insertTok x rest

/-- Insertion sort of the token list (Python `sorted`). -/
def sortToks (l : List (List Char)) : List (List Char) := l.foldr insertTok []

/-- Join tokens with single spaces (`" ".join(...)`). -/
def joinSp : List (List Char) → List Char
  | [] => []
  | [t] => t
  | t :: rest => t ++ ' ' :: joinSp rest

/-- rapidfuzz `fuzz.token_sort_ratio`: sort the whitespace-separated tokens
of both strings, rejoin with single spaces, and take the indel ratio.
(`token_sort_ratio` applies no processing beyond tokenizing and sorting;
the Python caller lowercases beforehand.) -/
def token_sort_ratio (s1 s2 : List Char) : Score :=
  ratioSc (joinSp (sortToks (splitWsL s1))) (joinSp (sortToks (splitWsL s2)))

/-- An EPG channel as collected by `download_epg_channels`. -/
structure EpgChan where
  id : String
  name : String
  logo : String
deriving DecidableEq, Repr

/-- An M3U channel as collected by `parse_m3u` (`tvg-name` and the
display name after the comma; the two query candidates of the matcher). -/
structure M3UChan where
  tvg_name : String
  display_name : String
deriving DecidableEq, Repr

/-- The score `match_channels` computes for one (query-candidate, EPG
channel) pair: `fuzz.token_sort_ratio(candidate.lower(), epg["name"].lower())`. -/
def chanScore (q : String) (e : EpgChan) : Score :=
  token_sort_ratio (lowerL q.data) (lowerL e.name.data)

/-- The inner `for epg: for candidate:` body of `match_channels`, folded
over the query candidates for one EPG channel: the best pair is updated iff
`score > best_score and score >= threshold`. -/
def matchStep (th : Nat) (qs : List String) (st : Score × Option EpgChan) (e : EpgChan) :
    Score × Option EpgChan :=
  qs.foldl
    (fun st q =>
      let sc := chanScore q e
      if sLt st.1 sc ∧ sLe ⟨th, 1⟩ sc then (sc, some e) else st)
    st

/-- The matcher for one M3U channel, given its query candidates: scan all
EPG channels starting from `best_score = 0`, `best_epg = None`. -/
def matchOne (qs : List String) (epgs : List EpgChan) (th : Nat) : Option EpgChan :=
  (epgs.foldl (matchStep th qs) (⟨0, 1⟩, none)).2

/-- Python dict assignment keyed by display name (later entries overwrite). -/
def putEntry (l : List (String × String × String)) (k : String) (v : String × String) :
    List (String × String × String) :=
  if l.any (fun p => p.1 == k) then l.map (fun p => if p.1 == k then (k, v) else p)
  else l ++ [(k, v)]

/-- `match_channels(m3u_channels, epg_channels)` with the threshold as a
parameter (the module constant `SIM_THRESHOLD` is 85): for each M3U channel
the query candidates are `[tvg-name, display-name]`; a mapping entry is
written only when some pair reached the threshold. -/
def match_channels (ms : List M3UChan) (epgs : List EpgChan) (th : Nat) :
    List (String × String × String) :=
  ms.foldl
    (fun acc m =>
      match matchOne [m.tvg_name, m.display_name] epgs th with
      | some e => putEntry acc m.display_name (e.id, e.logo)
      | none => acc)
    []

/-- Running best of the scores of one EPG channel against the query
candidates, scanned in candidate order starting from `m` (ties keep the
earlier holder, mirroring the strict `>` update of the code). -/
def bestFrom (e : EpgChan) (m : Score) : List String → Score
  | [] => m
  | q :: rest => bestFrom e (if sLt m (chanScore q e) then chanScore q e else m) rest

/-- The per-candidate score of spec §4.3: the best score any query
candidate attains against this EPG channel (0 when there are no queries). -/
def eScore (qs : List String) (e : EpgChan) : Score := bestFrom e ⟨0, 1⟩ qs

/-! ### Model of `merge_epg.py` (`optimize_epg_content`) -/

/-- An lxml element: tag, attributes, text (the text before the first
child, `None` or a string), and child elements. -/
inductive Elem where
  | mk (tag : String) (attrs : List (String × String)) (text : Option String)
       (children : List Elem)

/-- The tag of an element. -/
def Elem.tag : Elem → String
  | .mk t _ _ _ => t

/-- The attributes of an element. -/
def Elem.attrs : Elem → List (String × String)
  | .mk _ a _ _ => a

/-- The text of an element. -/
def Elem.text : Elem → Option String
  | .mk _ _ tx _ => tx

/-- The children of an element. -/
def Elem.children : Elem → List Elem
  | .mk _ _ _ cs => cs

/-- Replace the text of an element (`element.text = v`). -/
def setText (e : Elem) (v : String) : Elem :=
  match e with
  | .mk t a _ cs => .mk t a (some v) cs

/-- The tags stripped unconditionally from every programme
(`elements_to_strip`). -/
def stripTags : List String := ["sub-title", "credits", "star-rating", "review", "icon", "language"]

/-- The text-bearing tags checked afterwards (`elements_to_check`). -/
def checkTags : List String := ["desc", "title"]

/-- All tags whose first occurrence under a programme the pass may remove
or rewrite. -/
def affectedTags : List String := stripTags ++ checkTags

/-- `programme.find(tag)`: the first direct child with the given tag. -/
def findTag (t : String) (l : List Elem) : Option Elem :=
  l.find? (fun e => e.tag == t)

/-- `parent.remove(element)` applied to the first child with the given tag
(what the `find`-then-`remove` idiom of the source does). -/
def removeFirst (t : String) : List Elem → List Elem
  | [] => []
  | e :: rest => if e.tag = t then rest else e :: removeFirst t rest

/-- Set the text of the first child with the given tag (the
`element.text = re.sub(...)` assignment made through `find`'s result). -/
def replaceFirstText (t : String) (v : String) : List Elem → List Elem
  | [] => []
  | e :: rest => if e.tag = t then setText e v :: rest else e :: replaceFirstText t v rest

/-- Number of direct children with the given tag. -/
def tagCount (t : String) (l : List Elem) : Nat :=
  (l.filter (fun e => e.tag == t)).length

/-- The `for tag in elements_to_strip` loop: remove the first child with
each tag of the strip list, in list order. -/
def stripPass (l : List Elem) : List Elem :=
  stripTags.foldl (fun acc tg => removeFirst tg acc) l

/-- `re.sub(r'\s\x7b2,\x7d', ' ', text)`: each maximal run of two or more
whitespace characters becomes a single space; an isolated whitespace
character is kept as it is. -/
def collapseWs (l : List Char) : List Char :=
  l.foldr
    (fun c acc =>
      if isSpc c then
        match acc with
        | a :: rest => if isSpc a then ' ' :: rest else c :: acc
        | [] => [c]
      else c :: acc)
    []

/-- The whitespace normalization applied to `desc`/`title` text:
`re.sub(r'\s\x7b2,\x7d', ' ', text).strip()`. -/
def normText (s : String) : String := String.mk (stripEnds (collapseWs s.data))

/-- The `for tag in elements_to_check` body for one tag: look up the first
child with the tag; if it has text, normalize the text and remove the child
when the result is empty; if it has no text, remove it when it also has no
children and no attributes. -/
def processTag (t : String) (l : List Elem) : List Elem :=
  match findTag t l with
  | none => l
  | some e =>
      match e.text with
      | some s =>
          if normText s = "" then removeFirst t l
          else replaceFirstText t (normText s) l
      | none =>
          if e.children.isEmpty && e.attrs.isEmpty then removeFirst t l else l

/-- The whole per-programme cleanup of `optimize_epg_content`: the strip
loop, then the `desc` check, then the `title` check. -/
def cleanProgramme (l : List Elem) : List Elem :=
  processTag "title" (processTag "desc" (stripPass l))

/-- `optimize_epg_content(root)`: apply the per-programme cleanup to the
children of every element tagged `programme` in the tree (the source
iterates `root.iter('programme')`; the cleanup never removes or rewrites an
element tagged `programme`, so the processing order is immaterial and the
pass is modelled bottom-up). -/
def optimize : Elem → Elem
  | Elem.mk t a tx cs =>
      let cs' := cs.attach.map (fun x => optimize x.1)
      Elem.mk t a tx (if t = "programme" then cleanProgramme cs' else cs')
decreasing_by
  have := List.sizeOf_lt_of_mem x.2
  simp_wf
  omega

/-- Trees in which no programme element has two children with the same
affected tag (the first-occurrence-only behaviour of `find` makes the
cleanup sensitive to such duplicates). -/
inductive OkTree : Elem → Prop where
  | mk : ∀ t a tx cs,
      (t = "programme" → ∀ u ∈ affectedTags, tagCount u cs ≤ 1) →
      (∀ c ∈ cs, OkTree c) →
      OkTree (Elem.mk t a tx cs)

/-! ### Concrete scenario inputs -/

/-- Scenario A input stream: one channel `id="BBC1.uk"`, one programme
`channel="BBC1.uk"`. -/
def scenarioA : List Tok := [Tok.channel "BBC1.uk", Tok.programme (some "BBC1.uk")]

/-- Scenario B, feed 1: channel `CNN.us` and 3 programmes for it. -/
def feedB1 : Feed :=
  { channels := [⟨"CNN.us", "feed1"⟩],
    programmes := [⟨"CNN.us", "p1"⟩, ⟨"CNN.us", "p2"⟩, ⟨"CNN.us", "p3"⟩] }

/-- Scenario B, feed 2: channel `CNN.us` again and 2 programmes for it. -/
def feedB2 : Feed :=
  { channels := [⟨"CNN.us", "feed2"⟩],
    programmes := [⟨"CNN.us", "p4"⟩, ⟨"CNN.us", "p5"⟩] }

/-- Scenario C candidate channels (EPG side). -/
def scenarioCands : List EpgChan :=
  [⟨"espn.id", "ESPN", ""⟩, ⟨"espn2.id", "ESPN2", ""⟩, ⟨"fox.id", "Fox Sports", ""⟩]

/-- A programme element with two `icon` children. -/
def progTwoIcons : Elem :=
  Elem.mk "programme" [] none [Elem.mk "icon" [] none [], Elem.mk "icon" [] none []]

/-- A `tv` tree containing `progTwoIcons`. -/
def treeTwoIcons : Elem := Elem.mk "tv" [] none [progTwoIcons]

/-! ### Proof-side predicates -/

/-- Every programme element of the chunk list is preceded by the channel
element it references. -/
def ChanFirst (l : List Out) : Prop :=
  ∀ i c, l.get? i = some (Out.programmeElem c) →
    ∃ j, j < i ∧ l.get? j = some (Out.channelElem c)

/-- The keys of the `prog_counts` dict. -/
def keysOf (l : List (String × Nat)) : List String := l.map Prod.fst

/-- Counter bookkeeping invariant of `filter_epg_stream`: the dict keys are
duplicate-free, every counter equals the number of programme chunks written
for that channel, unkeyed channels have no programme chunks, the total
equals the sum of the counters, and the kept-id set coincides with the dict
keys. -/
def InvC4 (s : FState) : Prop :=
  (keysOf s.prog_counts).Nodup ∧
  (∀ c n, getKey s.prog_counts c = some n → n = s.out.count (Out.programmeElem c)) ∧
  (∀ c, hasKey s.prog_counts c = false → s.out.count (Out.programmeElem c) = 0) ∧
  s.total_programmes_written = sumVals s.prog_counts ∧
  (∀ c, c ∈ s.kept_channel_ids ↔ hasKey s.prog_counts c = true)

/-- No two adjacent whitespace characters: the normal form produced by the
whitespace-collapse of the optimization pass. -/
def NoRun (l : List Char) : Prop :=
  l.Chain' (fun a b => ¬(isSpc a = true ∧ isSpc b = true))

/-- The first character, if any, is not whitespace. -/
def HeadNoSpc (l : List Char) : Prop := ∀ c ∈ l.head?, isSpc c = false

/-- The last character, if any, is not whitespace. -/
def LastNoSpc (l : List Char) : Prop := ∀ c ∈ l.getLast?, isSpc c = false

/-! ## Theorems -/

/-! ### Dict/assoc-list lemmas -/

theorem hasKey_map_set (l : List (String × Nat)) (k : String) (v : Nat) (c : String) :
    hasKey (l.map (fun p => if p.1 == k then (k, v) else p)) c = hasKey l c := by
  induction l with
  | nil => rfl
  | cons p rest ih =>
    simp only [List.map_cons, hasKey, List.any_cons] at ih ⊢
    rw [ih]
    by_cases hpk : p.1 = k
    · simp [hpk]
    · simp [hpk]

theorem hasKey_setKey (l : List (String × Nat)) (k : String) (v : Nat) (c : String) :
    hasKey (setKey l k v) c = true ↔ (hasKey l c = true ∨ c = k) := by
  unfold setKey
  by_cases h : hasKey l k = true
  · rw [if_pos h, hasKey_map_set]
    constructor
    · exact Or.inl
    · rintro (h1 | rfl)
      · exact h1
      · exact h
  · rw [if_neg h]
    simp only [hasKey, List.any_append, List.any_cons, List.any_nil, Bool.or_false,
      Bool.or_eq_true, beq_iff_eq]
    constructor
    · rintro (h1 | h1)
      · exact Or.inl h1
      · exact Or.inr h1.symm
    · rintro (h1 | h1)
      · exact Or.inl h1
      · exact Or.inr h1.symm

theorem hasKey_bumpKey (l : List (String × Nat)) (k c : String) :
    hasKey (bumpKey l k) c = hasKey l c := by
  unfold bumpKey hasKey
  induction l with
  | nil => rfl
  | cons p rest ih =>
    simp only [List.map_cons, List.any_cons]
    rw [ih]
    by_cases hpk : p.1 == k <;> simp [hpk]

/-! ### Output-projection lemmas -/

theorem chansOf_append (a b : List Out) : chansOf (a ++ b) = chansOf a ++ chansOf b := by
  simp [chansOf, List.filterMap_append]

theorem progsOf_append (a b : List Out) : progsOf (a ++ b) = progsOf a ++ progsOf b := by
  simp [progsOf, List.filterMap_append]

/-! ### The filter run as a whole -/

theorem filter_eq_ok (wanted : List String) (toks : List Tok) (s : FState)
    (h : runLoop wanted initState toks = (s, true)) :
    filter_epg_stream wanted toks
      = ⟨s.out ++ [Out.footer], RunOutcome.ok (mkSummary s)⟩ := by
  unfold filter_epg_stream
  rw [h]

theorem filter_eq_failed (wanted : List String) (toks : List Tok) (s : FState)
    (h : runLoop wanted initState toks = (s, false)) :
    filter_epg_stream wanted toks = ⟨s.out, RunOutcome.failed s.total_parsed⟩ := by
  unfold filter_epg_stream
  rw [h]

theorem runLoop_proj (wanted : List String) (toks : List Tok) (s : FState) (acc : List String)
    (hk : ∀ c, hasKey s.prog_counts c = true ↔ c ∈ acc)
    (hm : Tok.malformed ∉ toks) :
    (runLoop wanted s toks).2 = true ∧
    chansOf (runLoop wanted s toks).1.out = chansOf s.out ++ specChannels wanted toks ∧
    progsOf (runLoop wanted s toks).1.out = progsOf s.out ++ specProgrammes wanted acc toks := by
  induction toks generalizing s acc with
  | nil => simp [runLoop, specChannels, specProgrammes]
  | cons t rest ih =>
    have hm' : Tok.malformed ∉ rest := by
      intro hmem
      exact hm (List.mem_cons_of_mem _ hmem)
    cases t with
    | malformed => exact absurd (List.mem_cons_self _ _) hm
    | other =>
      have := ih (stepTok wanted s Tok.other) acc (by simpa [stepTok] using hk) hm'
      simpa [runLoop, stepTok, specChannels, specProgrammes] using this
    | programme c =>
      cases c with
      | none =>
        have := ih (stepTok wanted s (Tok.programme none)) acc
          (by simpa [stepTok] using hk) hm'
        simpa [runLoop, stepTok, specChannels, specProgrammes] using this
      | some c =>
        by_cases hc : hasKey s.prog_counts c = true
        · have hacc : c ∈ acc := (hk c).mp hc
          have hk' : ∀ d, hasKey (stepTok wanted s (Tok.programme (some c))).prog_counts d = true
              ↔ d ∈ acc := by
            intro d
            simp only [stepTok, hc, if_true]
            rw [hasKey_bumpKey]
            exact hk d
          obtain ⟨h1, h2, h3⟩ := ih (stepTok wanted s (Tok.programme (some c))) acc
            hk' hm'
          refine ⟨by simpa [runLoop] using h1, ?_, ?_⟩
          · rw [show (runLoop wanted s (Tok.programme (some c) :: rest)).1
                = (runLoop wanted (stepTok wanted s (Tok.programme (some c))) rest).1 from rfl]
            rw [h2]
            simp [stepTok, hc, chansOf_append, chansOf, specChannels]
          · rw [show (runLoop wanted s (Tok.programme (some c) :: rest)).1
                = (runLoop wanted (stepTok wanted s (Tok.programme (some c))) rest).1 from rfl]
            rw [h3]
            simp [stepTok, hc, progsOf_append, progsOf, specProgrammes, hacc]
        · have hacc : c ∉ acc := fun hmem => hc ((hk c).mpr hmem)
          have hk' : ∀ d, hasKey (stepTok wanted s (Tok.programme (some c))).prog_counts d = true
              ↔ d ∈ acc := by
            intro d
            simp only [stepTok, hc, if_false, Bool.false_eq_true]
            exact hk d
          obtain ⟨h1, h2, h3⟩ := ih (stepTok wanted s (Tok.programme (some c))) acc
            hk' hm'
          refine ⟨by simpa [runLoop] using h1, ?_, ?_⟩
          · rw [show (runLoop wanted s (Tok.programme (some c) :: rest)).1
                = (runLoop wanted (stepTok wanted s (Tok.programme (some c))) rest).1 from rfl]
            rw [h2]
            simp [stepTok, hc, specChannels]
          · rw [show (runLoop wanted s (Tok.programme (some c) :: rest)).1
                = (runLoop wanted (stepTok wanted s (Tok.programme (some c))) rest).1 from rfl]
            rw [h3]
            simp [stepTok, hc, specProgrammes, hacc]
    | channel i =>
      by_cases hi : lowerStr i ∈ wanted
      · have hk' : ∀ d, hasKey (stepTok wanted s (Tok.channel i)).prog_counts d = true
            ↔ d ∈ i :: acc := by
          intro d
          simp only [stepTok, hi, if_true]
          rw [hasKey_setKey]
          constructor
          · rintro (h1 | h1)
            · exact List.mem_cons_of_mem _ ((hk d).mp h1)
            · rw [h1]
              exact List.mem_cons_self _ _
          · intro h1
            rcases List.mem_cons.mp h1 with h1 | h1
            · exact Or.inr h1
            · exact Or.inl ((hk d).mpr h1)
        obtain ⟨h1, h2, h3⟩ := ih (stepTok wanted s (Tok.channel i)) (i :: acc)
          hk' hm'
        refine ⟨by simpa [runLoop] using h1, ?_, ?_⟩
        · rw [show (runLoop wanted s (Tok.channel i :: rest)).1
              = (runLoop wanted (stepTok wanted s (Tok.channel i)) rest).1 from rfl]
          rw [h2]
          simp [stepTok, hi, chansOf_append, chansOf, specChannels]
        · rw [show (runLoop wanted s (Tok.channel i :: rest)).1
              = (runLoop wanted (stepTok wanted s (Tok.channel i)) rest).1 from rfl]
          rw [h3]
          simp [stepTok, hi, progsOf_append, progsOf, specProgrammes]
      · have hk' : ∀ d, hasKey (stepTok wanted s (Tok.channel i)).prog_counts d = true
            ↔ d ∈ acc := by
          intro d
          simp only [stepTok, hi, if_false]
          exact hk d
        obtain ⟨h1, h2, h3⟩ := ih (stepTok wanted s (Tok.channel i)) acc hk' hm'
        refine ⟨by simpa [runLoop] using h1, ?_, ?_⟩
        · rw [show (runLoop wanted s (Tok.channel i :: rest)).1
              = (runLoop wanted (stepTok wanted s (Tok.channel i)) rest).1 from rfl]
          rw [h2]
          simp [stepTok, hi, specChannels]
        · rw [show (runLoop wanted s (Tok.channel i :: rest)).1
              = (runLoop wanted (stepTok wanted s (Tok.channel i)) rest).1 from rfl]
          rw [h3]
          simp [stepTok, hi, specProgrammes]

/-- Claim C1: filter-mode correctness (spec P2).  For every WantedSet and
every well-formed input stream, `filter_epg_stream` writes exactly the
channel records whose lowercased id lies in the lowercased WantedSet, with
the original casing preserved, and exactly the programme records whose
`channel` attribute equals, case-sensitively, the original id of a channel
accepted earlier in this run. -/
theorem c1_filter_mode_correct (wantedRaw : List String) (D : List Tok)
    (hm : Tok.malformed ∉ D) :
    chansOf (filter_epg_stream (load_tvg_ids wantedRaw).2 D).output
      = specChannels (load_tvg_ids wantedRaw).2 D ∧
    progsOf (filter_epg_stream (load_tvg_ids wantedRaw).2 D).output
      = specProgrammes (load_tvg_ids wantedRaw).2 [] D := by
  obtain ⟨h1, h2, h3⟩ := runLoop_proj (load_tvg_ids wantedRaw).2 D initState []
    (by intro c; simp [initState, hasKey]) hm
  have hpair : runLoop (load_tvg_ids wantedRaw).2 initState D
      = ((runLoop (load_tvg_ids wantedRaw).2 initState D).1, true) := by
    rw [← h1]
  rw [filter_eq_ok _ _ _ hpair]
  constructor
  · rw [chansOf_append, h2]
    simp [initState, chansOf]
  · rw [progsOf_append, h3]
    simp [initState, progsOf]

/-- Witness for C1, instantiated at Scenario A: with WantedSet
`{"bbc1.uk"}` and an input holding channel `id="BBC1.uk"` and one programme
`channel="BBC1.uk"`, the output contains exactly that channel (original
casing preserved) and that programme. -/
theorem c1_scenarioA_witness :
    Tok.malformed ∉ scenarioA ∧
    chansOf (filter_epg_stream (load_tvg_ids ["bbc1.uk"]).2 scenarioA).output = ["BBC1.uk"] ∧
    progsOf (filter_epg_stream (load_tvg_ids ["bbc1.uk"]).2 scenarioA).output = ["BBC1.uk"] := by
  have h := c1_filter_mode_correct ["bbc1.uk"] scenarioA (by decide)
  exact ⟨by decide, h.1.trans (by decide), h.2.trans (by decide)⟩

/-! ### Output ordering (C10) -/

theorem chanFirst_append_nonprog (l : List Out) (x : Out)
    (hx : ∀ c, x ≠ Out.programmeElem c) (h : ChanFirst l) : ChanFirst (l ++ [x]) := by
  intro i c hi
  by_cases hlen : i < l.length
  · rw [List.get?_append hlen] at hi
    obtain ⟨j, hj, hjv⟩ := h i c hi
    exact ⟨j, hj, by rw [List.get?_append (lt_trans hj hlen)]; exact hjv⟩
  · rw [List.get?_append_right (le_of_not_lt hlen)] at hi
    rcases hk : i - l.length with _ | k
    · rw [hk] at hi
      simp only [List.get?] at hi
      exact absurd (Option.some.inj hi) (hx c)
    · rw [hk] at hi
      simp [List.get?] at hi

theorem chanFirst_append_prog (l : List Out) (c : String)
    (hmem : Out.channelElem c ∈ l) (h : ChanFirst l) : ChanFirst (l ++ [Out.programmeElem c]) := by
  intro i d hi
  by_cases hlen : i < l.length
  · rw [List.get?_append hlen] at hi
    obtain ⟨j, hj, hjv⟩ := h i d hi
    exact ⟨j, hj, by rw [List.get?_append (lt_trans hj hlen)]; exact hjv⟩
  · rw [List.get?_append_right (le_of_not_lt hlen)] at hi
    rcases hk : i - l.length with _ | k
    · rw [hk] at hi
      simp only [List.get?] at hi
      have hd : d = c := by
        have := Option.some.inj hi
        cases this
        rfl
      subst hd
      obtain ⟨j, hjv⟩ := List.get?_of_mem hmem
      have hjlt : j < l.length := (List.get?_eq_some.mp hjv).1
      have hile : l.length ≤ i := le_of_not_lt hlen
      exact ⟨j, lt_of_lt_of_le hjlt hile,
        by rw [List.get?_append hjlt]; exact hjv⟩
    · rw [hk] at hi
      simp [List.get?] at hi

theorem runLoop_chanFirst (wanted : List String) (toks : List Tok) (s : FState)
    (hP : ChanFirst s.out)
    (hMem : ∀ c, hasKey s.prog_counts c = true → Out.channelElem c ∈ s.out) :
    ChanFirst (runLoop wanted s toks).1.out ∧
    (∀ c, hasKey (runLoop wanted s toks).1.prog_counts c = true →
      Out.channelElem c ∈ (runLoop wanted s toks).1.out) := by
  induction toks generalizing s with
  | nil => exact ⟨hP, hMem⟩
  | cons t rest ih =>
    cases t with
    | malformed => exact ⟨hP, hMem⟩
    | other =>
      exact ih (stepTok wanted s Tok.other) (by simpa [stepTok] using hP)
        (by simpa [stepTok] using hMem)
    | programme c =>
      cases c with
      | none =>
        exact ih (stepTok wanted s (Tok.programme none))
          (by simpa [stepTok] using hP) (by simpa [stepTok] using hMem)
      | some c =>
        by_cases hc : hasKey s.prog_counts c = true
        · refine ih (stepTok wanted s (Tok.programme (some c))) ?_ ?_
          · simp only [stepTok, hc, if_true]
            exact chanFirst_append_prog s.out c (hMem c hc) hP
          · intro d hd
            simp only [stepTok, hc, if_true] at hd ⊢
            rw [hasKey_bumpKey] at hd
            exact List.mem_append_left _ (hMem d hd)
        · refine ih (stepTok wanted s (Tok.programme (some c))) ?_ ?_
          · simpa [stepTok, hc] using hP
          · intro d hd
            simp only [stepTok, hc, if_false, Bool.false_eq_true] at hd ⊢
            exact hMem d hd
    | channel i =>
      by_cases hi : lowerStr i ∈ wanted
      · refine ih (stepTok wanted s (Tok.channel i)) ?_ ?_
        · simp only [stepTok, hi, if_true]
          exact chanFirst_append_nonprog s.out _ (by intro c h; cases h) hP
        · intro d hd
          simp only [stepTok, hi, if_true] at hd ⊢
          rcases (hasKey_setKey _ _ _ _).mp hd with h1 | rfl
          · exact List.mem_append_left _ (hMem d h1)
          · exact List.mem_append_right _ (by simp)
      · refine ih (stepTok wanted s (Tok.channel i)) ?_ ?_
        · simpa [stepTok, hi] using hP
        · intro d hd
          simp only [stepTok, hi, if_false] at hd ⊢
          exact hMem d hd

/-- Claim C10: in the output of `filter_epg_stream`, every written
programme element occurs strictly after the written channel element it
references; the output stream never holds a programme whose channel has not
yet appeared. -/
theorem c10_programme_after_channel (wanted : List String) (toks : List Tok)
    (i : Nat) (c : String)
    (h : (filter_epg_stream wanted toks).output.get? i = some (Out.programmeElem c)) :
    ∃ j, j < i ∧
      (filter_epg_stream wanted toks).output.get? j = some (Out.channelElem c) := by
  have hinit : ChanFirst initState.out := by
    intro i c hi
    rcases i with _ | i
    · simp [initState, List.get?] at hi
    · rcases i with _ | i <;> simp [initState, List.get?] at hi
  have hmem : ∀ c, hasKey initState.prog_counts c = true → Out.channelElem c ∈ initState.out := by
    intro c hc
    simp [initState, hasKey] at hc
  obtain ⟨hrP, _⟩ := runLoop_chanFirst wanted toks initState hinit hmem
  revert h
  unfold filter_epg_stream
  rcases hr : runLoop wanted initState toks with ⟨s, b⟩
  have hsP : ChanFirst s.out := by
    have := hrP
    rw [hr] at this
    exact this
  cases b
  · exact fun h => hsP i c h
  · exact fun h =>
      chanFirst_append_nonprog s.out Out.footer (by intro c h; cases h) hsP i c h

/-- Witness for C10: a concrete run where the programme at output index 2
is preceded by its channel element at index 1. -/
theorem c10_witness :
    (filter_epg_stream ["a"] [Tok.channel "A", Tok.programme (some "A")]).output.get? 2
        = some (Out.programmeElem "A") ∧
    ∃ j, j < 2 ∧
      (filter_epg_stream ["a"] [Tok.channel "A", Tok.programme (some "A")]).output.get? j
          = some (Out.channelElem "A") :=
  ⟨by decide, c10_programme_after_channel ["a"] [Tok.channel "A", Tok.programme (some "A")]
    2 "A" (by decide)⟩

/-! ### Malformed input (C8) -/

theorem runLoop_append_ok (wanted : List String) (s : FState) (l1 l2 : List Tok)
    (h : Tok.malformed ∉ l1) :
    runLoop wanted s (l1 ++ l2) = runLoop wanted (runLoop wanted s l1).1 l2 ∧
    (runLoop wanted s l1).2 = true := by
  induction l1 generalizing s with
  | nil => simp [runLoop]
  | cons t rest ih =>
    have hm' : Tok.malformed ∉ rest := fun hmem => h (List.mem_cons_of_mem _ hmem)
    cases t with
    | malformed => exact absurd (List.mem_cons_self _ _) h
    | other => simpa [runLoop] using ih (stepTok wanted s Tok.other) hm'
    | programme c => simpa [runLoop] using ih (stepTok wanted s (Tok.programme c)) hm'
    | channel i => simpa [runLoop] using ih (stepTok wanted s (Tok.channel i)) hm'

theorem stepTok_parsed (wanted : List String) (s : FState) (t : Tok) :
    (stepTok wanted s t).total_parsed = s.total_parsed + 1 := by
  cases t with
  | malformed => rfl
  | other => rfl
  | channel i =>
    by_cases hi : lowerStr i ∈ wanted <;> simp [stepTok, hi]
  | programme c =>
    cases c with
    | none => rfl
    | some c => by_cases hc : hasKey s.prog_counts c = true <;> simp [stepTok, hc]

theorem runLoop_parsed (wanted : List String) (toks : List Tok) (s : FState)
    (h : Tok.malformed ∉ toks) :
    (runLoop wanted s toks).1.total_parsed = s.total_parsed + toks.length := by
  induction toks generalizing s with
  | nil => simp [runLoop]
  | cons t rest ih =>
    have hm' : Tok.malformed ∉ rest := fun hmem => h (List.mem_cons_of_mem _ hmem)
    cases t with
    | malformed => exact absurd (List.mem_cons_self _ _) h
    | other =>
      have := ih (stepTok wanted s Tok.other) hm'
      rw [stepTok_parsed] at this
      simpa [runLoop, Nat.add_assoc, Nat.add_comm 1 rest.length] using this
    | programme c =>
      have := ih (stepTok wanted s (Tok.programme c)) hm'
      rw [stepTok_parsed] at this
      simpa [runLoop, Nat.add_assoc, Nat.add_comm 1 rest.length] using this
    | channel i =>
      have := ih (stepTok wanted s (Tok.channel i)) hm'
      rw [stepTok_parsed] at this
      simpa [runLoop, Nat.add_assoc, Nat.add_comm 1 rest.length] using this

/-- Claim C8 (amended): a malformed record anywhere aborts the whole parse
with the propagated parser error carrying the position — there is no
best-effort recovery and no summary — but the output file does exist: it
already holds the header and every record accepted before the error, and
only the closing tag distinguishes it from the output of a clean run over
the well-formed prefix. -/
theorem c8_malformed_amended (wanted : List String) (pre rest : List Tok)
    (h : Tok.malformed ∉ pre) :
    (filter_epg_stream wanted (pre ++ Tok.malformed :: rest)).result
        = RunOutcome.failed pre.length ∧
    (filter_epg_stream wanted (pre ++ Tok.malformed :: rest)).output ++ [Out.footer]
        = (filter_epg_stream wanted pre).output := by
  obtain ⟨happ, hok⟩ := runLoop_append_ok wanted initState pre (Tok.malformed :: rest) h
  have hparsed : (runLoop wanted initState pre).1.total_parsed = pre.length := by
    rw [runLoop_parsed wanted pre initState h]
    simp [initState]
  have hfail : runLoop wanted initState (pre ++ Tok.malformed :: rest)
      = ((runLoop wanted initState pre).1, false) := by
    rw [happ]
    rfl
  have hpre : runLoop wanted initState pre = ((runLoop wanted initState pre).1, true) := by
    rw [← hok]
  rw [filter_eq_failed _ _ _ hfail, filter_eq_ok _ _ _ hpre, hparsed]
  exact ⟨rfl, rfl⟩

/-- Counterexample to C8 as stated: with WantedSet `{"a"}` and a stream
that accepts channel `A` and then hits malformed input, the parse does fail
(error at position 1), but an output file has been produced — it already
contains the header and the accepted channel. -/
theorem c8_partial_output_cex :
    (filter_epg_stream ["a"] [Tok.channel "A", Tok.malformed]).output
        = [Out.header, Out.channelElem "A"] ∧
    (filter_epg_stream ["a"] [Tok.channel "A", Tok.malformed]).result
        = RunOutcome.failed 1 := by
  decide

/-- Witness for the amended C8 at a concrete malformed stream. -/
theorem c8_malformed_witness :
    Tok.malformed ∉ [Tok.channel "B"] ∧
    (filter_epg_stream ["b"] ([Tok.channel "B"] ++ Tok.malformed :: [Tok.other])).result
        = RunOutcome.failed [Tok.channel "B"].length ∧
    (filter_epg_stream ["b"] ([Tok.channel "B"] ++ Tok.malformed :: [Tok.other])).output
        ++ [Out.footer]
        = (filter_epg_stream ["b"] [Tok.channel "B"]).output := by
  have h := c8_malformed_amended ["b"] [Tok.channel "B"] [Tok.other] (by decide)
  exact ⟨by decide, h.1, h.2⟩

/-! ### Empty WantedSet (C9) -/

theorem runLoop_empty_wanted (toks : List Tok) (s : FState)
    (hm : Tok.malformed ∉ toks) (hs : s.prog_counts = []) :
    (runLoop [] s toks).1 = { s with total_parsed := s.total_parsed + toks.length } ∧
    (runLoop [] s toks).2 = true := by
  induction toks generalizing s with
  | nil =>
    refine ⟨?_, rfl⟩
    simp [runLoop]
  | cons t rest ih =>
    have hm' : Tok.malformed ∉ rest := fun hmem => hm (List.mem_cons_of_mem _ hmem)
    cases t with
    | malformed => exact absurd (List.mem_cons_self _ _) hm
    | other =>
      obtain ⟨h1, h2⟩ := ih (stepTok [] s Tok.other) hm' (by simpa [stepTok] using hs)
      refine ⟨?_, by simpa [runLoop] using h2⟩
      rw [show (runLoop [] s (Tok.other :: rest)).1
          = (runLoop [] (stepTok [] s Tok.other) rest).1 from rfl, h1]
      simp [stepTok, Nat.add_assoc, Nat.add_comm 1 rest.length]
    | programme c =>
      have hstep : stepTok [] s (Tok.programme c)
          = { s with total_parsed := s.total_parsed + 1 } := by
        cases c with
        | none => rfl
        | some c => simp [stepTok, hs, hasKey]
      obtain ⟨h1, h2⟩ := ih (stepTok [] s (Tok.programme c)) hm'
        (by rw [hstep]; exact hs)
      refine ⟨?_, by simpa [runLoop] using h2⟩
      rw [show (runLoop [] s (Tok.programme c :: rest)).1
          = (runLoop [] (stepTok [] s (Tok.programme c)) rest).1 from rfl, h1, hstep]
      simp [Nat.add_assoc, Nat.add_comm 1 rest.length]
    | channel i =>
      have hstep : stepTok [] s (Tok.channel i)
          = { s with total_parsed := s.total_parsed + 1 } := by
        simp [stepTok]
      obtain ⟨h1, h2⟩ := ih (stepTok [] s (Tok.channel i)) hm'
        (by rw [hstep]; exact hs)
      refine ⟨?_, by simpa [runLoop] using h2⟩
      rw [show (runLoop [] s (Tok.channel i :: rest)).1
          = (runLoop [] (stepTok [] s (Tok.channel i)) rest).1 from rfl, h1, hstep]
      simp [Nat.add_assoc, Nat.add_comm 1 rest.length]

/-- Claim C9 (amended): an empty WantedSet is not rejected.  `load_tvg_ids`
returns an empty id set, `main` raises no error, and the run proceeds to
stream the whole feed, producing an output holding only the `<tv>`
envelope and a summary with zero channels and zero programmes. -/
theorem c9_empty_wanted_amended (toks : List Tok) (hm : Tok.malformed ∉ toks) :
    (filterMain [] toks).result
        = RunOutcome.ok
            { channels_written := 0, programmes_written := 0, kept_channel_ids := [],
              prog_counts := [], elements_parsed := toks.length } ∧
    (filterMain [] toks).output = [Out.header, Out.footer] := by
  obtain ⟨h1, h2⟩ := runLoop_empty_wanted toks initState hm rfl
  have hpair : runLoop [] initState toks
      = ({ initState with total_parsed := toks.length }, true) := by
    have : runLoop [] initState toks = ((runLoop [] initState toks).1, true) := by
      rw [← h2]
    rw [this, h1]
    simp [initState]
  have hwanted : (load_tvg_ids ([] : List String)).2 = [] := rfl
  unfold filterMain
  rw [hwanted, filter_eq_ok _ _ _ hpair]
  exact ⟨rfl, rfl⟩

/-- Counterexample to C9 as stated: with an empty WantedSet the run does
not fail fast — no error of any kind is raised before or during streaming;
the whole feed is parsed (`elements_parsed = 1` for a one-record stream)
and the run completes with an ok summary. -/
theorem c9_no_fail_fast_cex :
    (load_tvg_ids []).1 = [] ∧
    (filterMain [] [Tok.channel "X"]).result
        = RunOutcome.ok
            { channels_written := 0, programmes_written := 0, kept_channel_ids := [],
              prog_counts := [], elements_parsed := 1 } := by
  decide

/-- Witness for the amended C9 at a concrete stream. -/
theorem c9_empty_wanted_witness :
    Tok.malformed ∉ [Tok.channel "X", Tok.programme (some "X")] ∧
    (filterMain [] [Tok.channel "X", Tok.programme (some "X")]).result
        = RunOutcome.ok
            { channels_written := 0, programmes_written := 0, kept_channel_ids := [],
              prog_counts := [], elements_parsed := 2 } ∧
    (filterMain [] [Tok.channel "X", Tok.programme (some "X")]).output
        = [Out.header, Out.footer] := by
  have h := c9_empty_wanted_amended [Tok.channel "X", Tok.programme (some "X")] (by decide)
  exact ⟨by decide, h.1.trans (by decide), h.2⟩

/-! ### Merge dedup (C2) and merge programme handling (C3) -/

theorem addChannels_cons_mem (seen : List String) (acc : List Chan) (c : Chan) (rest : List Chan)
    (h : c.id ∈ seen) : addChannels seen acc (c :: rest) = addChannels seen acc rest := by
  simp [addChannels, h]

theorem addChannels_cons_new (seen : List String) (acc : List Chan) (c : Chan) (rest : List Chan)
    (h : c.id ∉ seen) :
    addChannels seen acc (c :: rest) = addChannels (seen ++ [c.id]) (acc ++ [c]) rest := by
  simp [addChannels, h]

theorem mergeLoop_chans (feeds : List Feed) (seen : List String) (chans : List Chan)
    (progs : List Prog) :
    (mergeLoop seen chans progs feeds).1 = (addChannels seen chans (allChans feeds)).2 := by
  induction feeds generalizing seen chans progs with
  | nil => simp [mergeLoop, allChans, addChannels]
  | cons f rest ih =>
    rw [show mergeLoop seen chans progs (f :: rest)
        = mergeLoop (addChannels seen chans f.channels).1 (addChannels seen chans f.channels).2
            (progs ++ f.programmes) rest from rfl]
    rw [ih]
    have happ : ∀ (l1 l2 : List Chan) (sn : List String) (ac : List Chan),
        addChannels sn ac (l1 ++ l2)
          = addChannels (addChannels sn ac l1).1 (addChannels sn ac l1).2 l2 := by
      intro l1
      induction l1 with
      | nil => intro l2 sn ac; simp [addChannels]
      | cons c r ihl =>
        intro l2 sn ac
        by_cases hc : c.id ∈ sn
        · rw [List.cons_append, addChannels_cons_mem _ _ _ _ hc,
            addChannels_cons_mem _ _ _ _ hc, ihl]
        · rw [List.cons_append, addChannels_cons_new _ _ _ _ hc,
            addChannels_cons_new _ _ _ _ hc, ihl]
    have : allChans (f :: rest) = f.channels ++ allChans rest := by
      simp [allChans]
    rw [this, happ]

theorem mergeLoop_progs (feeds : List Feed) (seen : List String) (chans : List Chan)
    (progs : List Prog) :
    (mergeLoop seen chans progs feeds).2 = progs ++ allProgs feeds := by
  induction feeds generalizing seen chans progs with
  | nil => simp [mergeLoop, allProgs]
  | cons f rest ih =>
    rw [show mergeLoop seen chans progs (f :: rest)
        = mergeLoop (addChannels seen chans f.channels).1 (addChannels seen chans f.channels).2
            (progs ++ f.programmes) rest from rfl]
    rw [ih]
    simp [allProgs]

theorem addChannels_spec (l : List Chan) (seen : List String) (acc : List Chan) :
    (addChannels seen acc l).2
      = acc ++ specDedupFirst (l.filter (fun c => c.id ∉ seen)) := by
  induction l generalizing seen acc with
  | nil => simp [addChannels, specDedupFirst]
  | cons c rest ih =>
    by_cases hc : c.id ∈ seen
    · rw [addChannels_cons_mem _ _ _ _ hc, ih]
      have : (c :: rest).filter (fun c => decide (c.id ∉ seen))
          = rest.filter (fun c => decide (c.id ∉ seen)) := by
        simp [List.filter_cons, hc]
      rw [this]
    · rw [addChannels_cons_new _ _ _ _ hc, ih, List.append_assoc]
      congr 1
      have : (c :: rest).filter (fun c => decide (c.id ∉ seen))
          = c :: rest.filter (fun c => decide (c.id ∉ seen)) := by
        simp [List.filter_cons, hc]
      rw [this, specDedupFirst, List.singleton_append]
      congr 1
      rw [List.filter_filter]
      congr 1
      apply List.filter_congr
      intro d _
      by_cases h1 : d.id ∈ seen <;> by_cases h2 : d.id = c.id <;>
        simp [h1, h2, List.mem_append]

theorem specDedupFirst_sub (n : Nat) :
    ∀ l : List Chan, l.length ≤ n → ∀ c ∈ specDedupFirst l, c ∈ l := by
  induction n with
  | zero =>
    intro l hl c hc
    rw [List.length_eq_zero.mp (Nat.le_zero.mp hl)] at hc ⊢
    rw [specDedupFirst] at hc
    exact hc
  | succ n ih =>
    intro l hl c hc
    match l with
    | [] =>
      rw [specDedupFirst] at hc
      exact hc
    | d :: rest =>
      rw [specDedupFirst] at hc
      rcases List.mem_cons.mp hc with h1 | h1
      · rw [h1]
        exact List.mem_cons_self _ _
      · have hlen : (rest.filter (fun e => e.id ≠ d.id)).length ≤ n :=
          le_trans (List.length_filter_le _ _) (Nat.le_of_succ_le_succ hl)
        have := ih _ hlen c h1
        exact List.mem_cons_of_mem _ (List.mem_of_mem_filter this)

theorem specDedupFirst_nodup_aux (n : Nat) :
    ∀ l : List Chan, l.length ≤ n → ((specDedupFirst l).map Chan.id).Nodup := by
  induction n with
  | zero =>
    intro l hl
    rw [List.length_eq_zero.mp (Nat.le_zero.mp hl), specDedupFirst]
    simp
  | succ n ih =>
    intro l hl
    match l with
    | [] =>
      rw [specDedupFirst]
      simp
    | d :: rest =>
      rw [specDedupFirst]
      simp only [List.map_cons, List.nodup_cons]
      constructor
      · intro hmem
        obtain ⟨c, hc, hcid⟩ := List.mem_map.mp hmem
        have hlen : (rest.filter (fun e => e.id ≠ d.id)).length ≤ n :=
          le_trans (List.length_filter_le _ _) (Nat.le_of_succ_le_succ hl)
        have hcin := specDedupFirst_sub n _ hlen c hc
        have := List.of_mem_filter hcin
        simp only [ne_eq, decide_not, Bool.not_eq_true', decide_eq_false_iff_not] at this
        exact this hcid
      · exact ih _ (le_trans (List.length_filter_le _ _) (Nat.le_of_succ_le_succ hl))

/-- Claim C2 (amended): `merge_epgs` deduplicates channels by their raw,
case-sensitive id — the merged channel list is exactly the first-seen-wins
selection keyed by the exact id (later duplicate definitions are dropped
without error), and each raw id occurs at most once.  (Ids differing only
in case are kept separately; see the counterexample.) -/
theorem c2_raw_id_first_seen_wins (feeds : List Feed) :
    (merge_epgs feeds).1 = specDedupFirst (allChans feeds) ∧
    ((merge_epgs feeds).1.map Chan.id).Nodup := by
  have h1 : (merge_epgs feeds).1 = (addChannels [] [] (allChans feeds)).2 :=
    mergeLoop_chans feeds [] [] []
  have h2 : (addChannels [] [] (allChans feeds)).2 = specDedupFirst (allChans feeds) := by
    rw [addChannels_spec]
    have : (allChans feeds).filter (fun c => c.id ∉ ([] : List String)) = allChans feeds := by
      apply List.filter_eq_self.mpr
      intro c _
      simp
    rw [this, List.nil_append]
  refine ⟨h1.trans h2, ?_⟩
  rw [h1, h2]
  exact specDedupFirst_nodup_aux (allChans feeds).length _ le_rfl

/-- Counterexample to C2 as stated: two feeds defining `CNN.us` and
`cnn.us` — the same channel id up to normalization — produce two channel
elements in the merged output, so a normalized (lowercased) id occurs
twice; dedup is keyed by the raw id only. -/
theorem c2_normalized_dedup_cex :
    ((merge_epgs [⟨[⟨"CNN.us", "first"⟩], []⟩, ⟨[⟨"cnn.us", "second"⟩], []⟩]).1.map
        (fun c => lowerStr c.id)) = ["cnn.us", "cnn.us"] ∧
    (merge_epgs [⟨[⟨"CNN.us", "first"⟩], []⟩, ⟨[⟨"cnn.us", "second"⟩], []⟩]).1
        = [⟨"CNN.us", "first"⟩, ⟨"cnn.us", "second"⟩] := by
  decide

/-- Claim C3 (amended): `merge_epgs` copies every programme record of every
feed into the merged output unconditionally, in feed order; the `channel`
attribute is never compared against the accepted channels, so programmes
whose `channelRef` matches no channel are kept, not dropped. -/
theorem c3_programmes_unconditional (feeds : List Feed) :
    (merge_epgs feeds).2 = allProgs feeds :=
  mergeLoop_progs feeds [] [] []

/-- Counterexample to C3 as stated: a feed with no channels and one
programme whose `channel` attribute is `X` — the claim requires the
programme to be dropped, but the merged output keeps it even though no
channel `X` was accepted. -/
theorem c3_unmatched_programme_kept_cex :
    (⟨"X", "orphan"⟩ : Prog) ∈ (merge_epgs [⟨[], [⟨"X", "orphan"⟩]⟩]).2 ∧
    (merge_epgs [⟨[], [⟨"X", "orphan"⟩]⟩]).1 = [] := by
  decide

/-! ### Per-channel counters (C4) -/

theorem hasKey_false_iff (l : List (String × Nat)) (c : String) :
    hasKey l c = false ↔ c ∉ keysOf l := by
  rw [← Bool.not_eq_true]
  simp only [hasKey, List.any_eq_true, beq_iff_eq, keysOf, List.mem_map, not_exists]

theorem hasKey_getKey (l : List (String × Nat)) (c : String) (h : hasKey l c = true) :
    ∃ n, getKey l c = some n := by
  induction l with
  | nil => simp [hasKey] at h
  | cons p rest ih =>
    by_cases hp : (p.1 == c) = true
    · exact ⟨p.2, by simp [getKey, hp]⟩
    · simp only [hasKey, List.any_cons, Bool.or_eq_true] at h
      rcases h with h | h
      · exact absurd h hp
      · obtain ⟨n, hn⟩ := ih h
        exact ⟨n, by simpa [getKey, hp] using hn⟩

theorem getKey_bumpKey_self (l : List (String × Nat)) (c : String) :
    getKey (bumpKey l c) c = (getKey l c).map (· + 1) := by
  induction l with
  | nil => rfl
  | cons p rest ih =>
    by_cases hp : (p.1 == c) = true
    · simp only [bumpKey, List.map_cons, if_pos hp]
      simp [getKey, hp]
    · simp only [bumpKey, List.map_cons, if_neg hp]
      simpa [getKey, bumpKey, hp] using ih

theorem getKey_bumpKey_ne (l : List (String × Nat)) (c d : String) (h : d ≠ c) :
    getKey (bumpKey l c) d = getKey l d := by
  induction l with
  | nil => rfl
  | cons p rest ih =>
    by_cases hpd : (p.1 == d) = true
    · have hpc : ¬ (p.1 == c) = true := by
        have : p.1 = d := by simpa using hpd
        simp [this, fun hh : d = c => h hh]
      simp only [bumpKey, List.map_cons, if_neg hpc]
      simp [getKey, hpd]
    · by_cases hpc : (p.1 == c) = true
      · simp only [bumpKey, List.map_cons, if_pos hpc]
        have hpd2 : ¬ ((p.1, p.2 + 1).1 == d) = true := hpd
        simpa [getKey, bumpKey, hpd, hpd2] using ih
      · simp only [bumpKey, List.map_cons, if_neg hpc]
        simpa [getKey, bumpKey, hpd] using ih

theorem getKey_append_fresh (l : List (String × Nat)) (k : String) (v : Nat)
    (h : hasKey l k = false) : getKey (l ++ [(k, v)]) k = some v := by
  induction l with
  | nil => simp [getKey]
  | cons p rest ih =>
    simp only [hasKey, List.any_cons, Bool.or_eq_false_iff] at h
    rw [List.cons_append]
    have := ih (by simpa [hasKey] using h.2)
    simpa [getKey, h.1] using this

theorem getKey_append_ne (l : List (String × Nat)) (k : String) (v : Nat) (d : String)
    (h : d ≠ k) : getKey (l ++ [(k, v)]) d = getKey l d := by
  induction l with
  | nil => simp [getKey, Ne.symm h]
  | cons p rest ih =>
    by_cases hp : (p.1 == d) = true
    · rw [List.cons_append]
      simp [getKey, hp]
    · rw [List.cons_append]
      simpa [getKey, hp] using ih

theorem keysOf_bumpKey (l : List (String × Nat)) (c : String) :
    keysOf (bumpKey l c) = keysOf l := by
  unfold keysOf bumpKey
  rw [List.map_map]
  apply List.map_congr_left
  intro a _
  by_cases h : a.1 = c <;> simp [h]

theorem bumpKey_absent (l : List (String × Nat)) (c : String) (h : hasKey l c = false) :
    bumpKey l c = l := by
  induction l with
  | nil => rfl
  | cons p rest ih =>
    simp only [hasKey, List.any_cons, Bool.or_eq_false_iff] at h
    have h2 : bumpKey rest c = rest := ih (by simpa [hasKey] using h.2)
    simp only [bumpKey, List.map_cons] at h2 ⊢
    rw [if_neg (by simp [h.1]), h2]

theorem sumVals_bumpKey (l : List (String × Nat)) (c : String)
    (hnd : (keysOf l).Nodup) (h : hasKey l c = true) :
    sumVals (bumpKey l c) = sumVals l + 1 := by
  induction l with
  | nil => simp [hasKey] at h
  | cons p rest ih =>
    simp only [keysOf, List.map_cons, List.nodup_cons] at hnd
    by_cases hp : (p.1 == c) = true
    · have hpc : p.1 = c := by simpa using hp
      have hrest : hasKey rest c = false := by
        rw [hasKey_false_iff, ← hpc]
        exact hnd.1
      have hbr : List.map (fun p => if (p.1 == c) = true then (p.1, p.2 + 1) else p) rest
          = rest := by
        simpa [bumpKey] using bumpKey_absent rest c hrest
      simp only [bumpKey, List.map_cons, if_pos hp, hbr, sumVals, List.sum_cons]
      omega
    · have hr : hasKey rest c = true := by
        simp only [hasKey, List.any_cons, Bool.or_eq_true] at h
        rcases h with h | h
        · exact absurd h hp
        · simpa [hasKey] using h
      have hrec := ih hnd.2 hr
      simp only [bumpKey, List.map_cons, if_neg hp]
      simp only [bumpKey, sumVals, List.map_cons, List.sum_cons] at hrec ⊢
      omega

theorem sumVals_append (l : List (String × Nat)) (p : String × Nat) :
    sumVals (l ++ [p]) = sumVals l + p.2 := by
  simp [sumVals]

theorem count_append_elem (l : List Out) (x y : Out) :
    (l ++ [x]).count y = l.count y + (if x = y then 1 else 0) := by
  rw [List.count_append]
  by_cases h : x = y <;> simp [h, List.count_cons, List.count_nil]

theorem runLoop_counts (wanted : List String) (toks : List Tok) (s : FState)
    (hm : Tok.malformed ∉ toks)
    (hnd : (channelIds toks).Nodup)
    (hfresh : ∀ i ∈ channelIds toks, hasKey s.prog_counts i = false)
    (hinv : InvC4 s) :
    InvC4 (runLoop wanted s toks).1 := by
  induction toks generalizing s with
  | nil => exact hinv
  | cons t rest ih =>
    have hm' : Tok.malformed ∉ rest := fun hmem => hm (List.mem_cons_of_mem _ hmem)
    obtain ⟨i1, i2, i3, i4, i5⟩ := hinv
    cases t with
    | malformed => exact absurd (List.mem_cons_self _ _) hm
    | other =>
      refine ih (stepTok wanted s Tok.other) hm' (by simpa [channelIds] using hnd)
        ?_ ⟨?_, ?_, ?_, ?_, ?_⟩ <;> simp [stepTok, channelIds] at hfresh ⊢ <;>
        first
          | exact hfresh
          | exact i1
          | exact i2
          | exact i3
          | exact i4
          | exact i5
    | programme c =>
      cases c with
      | none =>
        refine ih (stepTok wanted s (Tok.programme none)) hm'
          (by simpa [channelIds] using hnd) ?_ ⟨?_, ?_, ?_, ?_, ?_⟩ <;>
          simp [stepTok, channelIds] at hfresh ⊢ <;>
          first
            | exact hfresh
            | exact i1
            | exact i2
            | exact i3
            | exact i4
            | exact i5
      | some c =>
        by_cases hc : hasKey s.prog_counts c = true
        · refine ih (stepTok wanted s (Tok.programme (some c))) hm'
            (by simpa [channelIds] using hnd) ?_ ⟨?_, ?_, ?_, ?_, ?_⟩
          · intro d hd
            simp only [stepTok, hc, if_true]
            rw [show (hasKey (bumpKey s.prog_counts c) d) = hasKey s.prog_counts d
              from hasKey_bumpKey _ _ _]
            exact hfresh d (by simpa [channelIds] using hd)
          · simp only [stepTok, hc, if_true]
            rw [show keysOf (bumpKey s.prog_counts c) = keysOf s.prog_counts
              from keysOf_bumpKey _ _]
            exact i1
          · intro d n hdn
            simp only [stepTok, hc, if_true] at hdn ⊢
            by_cases hdc : d = c
            · subst hdc
              rw [getKey_bumpKey_self] at hdn
              obtain ⟨m, hm1⟩ := hasKey_getKey _ _ hc
              rw [hm1] at hdn
              have hn : n = m + 1 := by
                simpa using hdn.symm
              rw [count_append_elem, if_pos rfl, ← i2 d m hm1, hn]
            · rw [getKey_bumpKey_ne _ _ _ hdc] at hdn
              rw [count_append_elem, if_neg (by simp; exact fun hh => hdc hh.symm),
                Nat.add_zero]
              exact i2 d n hdn
          · intro d hd
            simp only [stepTok, hc, if_true] at hd ⊢
            rw [hasKey_bumpKey] at hd
            have hdc : d ≠ c := fun hh => by rw [hh] at hd; rw [hd] at hc; cases hc
            rw [count_append_elem, if_neg (by simp; exact fun hh => hdc hh.symm),
              Nat.add_zero]
            exact i3 d hd
          · simp only [stepTok, hc, if_true]
            rw [sumVals_bumpKey _ _ i1 hc]
            omega
          · intro d
            simp only [stepTok, hc, if_true]
            rw [hasKey_bumpKey]
            exact i5 d
        · refine ih (stepTok wanted s (Tok.programme (some c))) hm'
            (by simpa [channelIds] using hnd) ?_ ⟨?_, ?_, ?_, ?_, ?_⟩ <;>
            simp only [stepTok, hc, if_false, Bool.false_eq_true] <;>
            first
              | exact fun d hd => hfresh d (by simpa [channelIds] using hd)
              | exact i1
              | exact i2
              | exact i3
              | exact i4
              | exact i5
    | channel i =>
      have hidmem : i ∈ channelIds (Tok.channel i :: rest) := by
        simp [channelIds]
      have hfi : hasKey s.prog_counts i = false := hfresh i hidmem
      have hndi : i ∉ channelIds rest := by
        have := hnd
        simp only [channelIds, List.filterMap_cons] at this
        simp only [List.nodup_cons] at this
        simpa [channelIds] using this.1
      have hndr : (channelIds rest).Nodup := by
        have := hnd
        simp only [channelIds, List.filterMap_cons] at this
        simp only [List.nodup_cons] at this
        simpa [channelIds] using this.2
      by_cases hi : lowerStr i ∈ wanted
      · have hset : setKey s.prog_counts i 0 = s.prog_counts ++ [(i, 0)] := by
          unfold setKey
          rw [if_neg (by simp [hfi])]
        refine ih (stepTok wanted s (Tok.channel i)) hm' hndr ?_ ⟨?_, ?_, ?_, ?_, ?_⟩
        · intro d hd
          simp only [stepTok, hi, if_true, hset]
          have hdi : d ≠ i := fun hh => hndi (hh ▸ hd)
          rw [← Bool.not_eq_true]
          intro habs
          rcases (hasKey_setKey s.prog_counts i 0 d).mp (by rw [hset]; exact habs) with h1 | h1
          · have := hfresh d (List.mem_cons_of_mem _ (by simpa [channelIds] using hd))
            rw [this] at h1
            cases h1
          · exact hdi h1
        · simp only [stepTok, hi, if_true, hset, keysOf, List.map_append]
          rw [List.nodup_append]
          refine ⟨i1, by simp, ?_⟩
          intro a ha hb
          simp only [List.map_cons, List.map_nil, List.mem_singleton] at hb
          subst hb
          exact (hasKey_false_iff _ _).mp hfi ha
        · intro d n hdn
          simp only [stepTok, hi, if_true, hset] at hdn ⊢
          by_cases hdi : d = i
          · subst hdi
            rw [getKey_append_fresh _ _ _ hfi] at hdn
            have : n = 0 := by simpa using hdn.symm
            subst this
            rw [count_append_elem, if_neg (by simp), Nat.add_zero]
            exact (i3 d hfi).symm
          · rw [getKey_append_ne _ _ _ _ hdi] at hdn
            rw [count_append_elem, if_neg (by simp), Nat.add_zero]
            exact i2 d n hdn
        · intro d hd
          simp only [stepTok, hi, if_true, hset] at hd ⊢
          have hd' : hasKey s.prog_counts d = false ∧ d ≠ i := by
            constructor
            · rw [← Bool.not_eq_true]
              intro habs
              have : hasKey (s.prog_counts ++ [(i, 0)]) d = true := by
                have := (hasKey_setKey s.prog_counts i 0 d).mpr (Or.inl habs)
                rwa [hset] at this
              rw [this] at hd
              cases hd
            · intro hh
              subst hh
              have : hasKey (s.prog_counts ++ [(d, 0)]) d = true := by
                have := (hasKey_setKey s.prog_counts d 0 d).mpr (Or.inr rfl)
                rwa [show setKey s.prog_counts d 0 = s.prog_counts ++ [(d, 0)] from by
                  unfold setKey; rw [if_neg (by simp [hfi])]] at this
              rw [this] at hd
              cases hd
          rw [count_append_elem, if_neg (by simp), Nat.add_zero]
          exact i3 d hd'.1
        · simp only [stepTok, hi, if_true, hset]
          rw [sumVals_append]
          simpa using i4
        · intro d
          simp only [stepTok, hi, if_true, hset, addId]
          have hiff := hasKey_setKey s.prog_counts i 0 d
          rw [hset] at hiff
          rw [hiff]
          by_cases hdk : i ∈ s.kept_channel_ids
          · rw [if_pos hdk]
            constructor
            · intro hd
              exact Or.inl ((i5 d).mp hd)
            · rintro (h1 | rfl)
              · exact (i5 d).mpr h1
              · exact hdk
          · rw [if_neg hdk]
            simp only [List.mem_append, List.mem_singleton]
            constructor
            · rintro (h1 | rfl)
              · exact Or.inl ((i5 d).mp h1)
              · exact Or.inr rfl
            · rintro (h1 | rfl)
              · exact Or.inl ((i5 d).mpr h1)
              · exact Or.inr rfl
      · refine ih (stepTok wanted s (Tok.channel i)) hm' hndr ?_ ⟨?_, ?_, ?_, ?_, ?_⟩ <;>
          simp only [stepTok, hi, if_false] <;>
          first
            | exact fun d hd => hfresh d (List.mem_cons_of_mem _ hd)
            | exact i1
            | exact i2
            | exact i3
            | exact i4
            | exact i5

/-- Claim C4 (amended): provided no channel id occurs on two channel
elements of the input (a duplicate accepted definition resets its counter;
see the counterexample), at the end of a successful filter run every
accepted channel has a counter equal to the number of programme records
written for it, and the programmes-written total equals the sum of the
counters.  For Scenario B, `merge_epgs` itself keeps no counters; the
merged output holds one `CNN.us` channel element and 5 programme elements,
all 5 referencing `CNN.us`. -/
theorem c4_counters_amended :
    (∀ (wanted : List String) (D : List Tok) (s : Summary),
        Tok.malformed ∉ D → (channelIds D).Nodup →
        (filter_epg_stream wanted D).result = RunOutcome.ok s →
        (∀ c, c ∈ s.kept_channel_ids ↔ hasKey s.prog_counts c = true) ∧
        (∀ c n, getKey s.prog_counts c = some n →
            n = (filter_epg_stream wanted D).output.count (Out.programmeElem c)) ∧
        s.programmes_written = sumVals s.prog_counts) ∧
    ((merge_epgs [feedB1, feedB2]).1 = [⟨"CNN.us", "feed1"⟩] ∧
      ((merge_epgs [feedB1, feedB2]).2.filter (fun p => p.channel == "CNN.us")).length = 5 ∧
      (merge_epgs [feedB1, feedB2]).2.length = 5) := by
  constructor
  · intro wanted D s hm hnd hres
    have hinv0 : InvC4 initState := by
      refine ⟨by simp [initState, keysOf], ?_, ?_, by simp [initState, sumVals], ?_⟩
      · intro c n hn
        simp [initState, getKey] at hn
      · intro c _
        simp [initState]
      · intro c
        simp [initState, hasKey]
    have hinv := runLoop_counts wanted D initState hm hnd
      (by intro i _; simp [initState, hasKey]) hinv0
    rcases hr : runLoop wanted initState D with ⟨s', b⟩
    rw [hr] at hinv
    cases b
    · rw [filter_eq_failed _ _ _ hr] at hres
      cases hres
    · rw [filter_eq_ok _ _ _ hr] at hres ⊢
      have hs : s = mkSummary s' := (RunOutcome.ok.inj hres).symm
      obtain ⟨j1, j2, j3, j4, j5⟩ := hinv
      subst hs
      refine ⟨j5, ?_, j4⟩
      intro c n hn
      have := j2 c n hn
      rw [this]
      rw [count_append_elem, if_neg (by simp), Nat.add_zero]
  · refine ⟨by decide, by decide, by decide⟩

/-- Counterexample to C4 as stated: a wanted channel defined twice in one
stream (`A`, a programme, `A` again, a programme).  The second definition
resets the counter (`prog_counts[cid_raw] = 0`), so the reported counter
for `A` is 1 while 2 programmes were routed to it and 2 were reported
written in total — the per-channel counter and the sum property both
fail. -/
theorem c4_counter_reset_cex :
    (filter_epg_stream ["a"]
        [Tok.channel "A", Tok.programme (some "A"), Tok.channel "A",
          Tok.programme (some "A")]).result
      = RunOutcome.ok
          { channels_written := 2, programmes_written := 2, kept_channel_ids := ["A"],
            prog_counts := [("A", 1)], elements_parsed := 4 } ∧
    (filter_epg_stream ["a"]
        [Tok.channel "A", Tok.programme (some "A"), Tok.channel "A",
          Tok.programme (some "A")]).output.count (Out.programmeElem "A") = 2 := by
  decide

/-- Witness for the amended C4 at a concrete duplicate-free stream: channel
`A` with two programmes; the counter for `A` is 2, which equals both the
number of programme chunks written for `A` and the reported total. -/
theorem c4_counters_witness :
    (2 : Nat)
        = (filter_epg_stream ["a"]
            [Tok.channel "A", Tok.programme (some "A"), Tok.programme (some "A")]).output.count
            (Out.programmeElem "A") ∧
    (2 : Nat) = sumVals [("A", 2)] := by
  have h := c4_counters_amended.1 ["a"]
    [Tok.channel "A", Tok.programme (some "A"), Tok.programme (some "A")]
    { channels_written := 1, programmes_written := 2, kept_channel_ids := ["A"],
      prog_counts := [("A", 2)], elements_parsed := 3 }
    (by decide) (by decide) (by decide)
  exact ⟨h.2.1 "A" 2 (by decide), by decide⟩

/-! ### Fuzzy matcher normalization (C5) -/

/-- Counterexample to C5 as stated: matching query `"ESPN HD"` against the
Scenario C candidates with threshold 85 returns nothing — the claimed
stoplist removal of `hd` does not happen, so `ESPN` scores 800/11 ≈ 72.7,
under the threshold, and no mapping entry is produced. -/
theorem c5_stoplist_cex :
    matchOne ["ESPN HD"] scenarioCands 85 = none ∧
    match_channels [⟨"ESPN HD", "ESPN HD"⟩] scenarioCands 85 = [] := by
  decide

/-- Claim C5 (amended): the only normalization `match_channels` applies
before scoring is lowercasing (`token_sort_ratio` itself only tokenizes on
whitespace and sorts the tokens); there is no punctuation stripping and no
stoplist, so `hd` stays in the query.  In Scenario C the best candidate
`ESPN` scores exactly 800/11 < 85, no candidate reaches the threshold, and
no match is returned; lowering the threshold to 72 makes the same
run return `ESPN`. -/
theorem c5_lowercase_only_amended :
    lowerL "ESPN HD".data = "espn hd".data ∧
    chanScore "ESPN HD" ⟨"espn.id", "ESPN", ""⟩ = ⟨800, 11⟩ ∧
    sLt ⟨800, 11⟩ ⟨85, 1⟩ ∧
    matchOne ["ESPN HD"] scenarioCands 85 = none ∧
    matchOne ["ESPN HD"] scenarioCands 72 = some ⟨"espn.id", "ESPN", ""⟩ := by
  refine ⟨by decide, by decide, by decide, by decide, by decide⟩

/-! ### Fuzzy matcher determinism and tie-break (C6) -/

theorem toRat_nonneg (x : Score) : 0 ≤ x.toRat :=
  div_nonneg (by exact_mod_cast Nat.zero_le _) (by exact_mod_cast Nat.zero_le _)

theorem natScore_toRat (n : Nat) : (⟨n, 1⟩ : Score).toRat = (n : ℚ) := by
  simp [Score.toRat]

theorem slt_iff (x y : Score) (hx : 0 < x.den) (hy : 0 < y.den) :
    sLt x y ↔ x.toRat < y.toRat := by
  unfold sLt Score.toRat
  rw [div_lt_div_iff₀ (by exact_mod_cast hx) (by exact_mod_cast hy)]
  exact_mod_cast Iff.rfl

theorem sle_iff (x y : Score) (hx : 0 < x.den) (hy : 0 < y.den) :
    sLe x y ↔ x.toRat ≤ y.toRat := by
  unfold sLe Score.toRat
  rw [div_le_div_iff₀ (by exact_mod_cast hx) (by exact_mod_cast hy)]
  exact_mod_cast Iff.rfl

theorem ratioSc_den_pos (a b : List Char) : 0 < (ratioSc a b).den := by
  unfold ratioSc
  split
  · exact Nat.one_pos
  · next h => exact Nat.pos_of_ne_zero h

theorem chanScore_den_pos (q : String) (e : EpgChan) : 0 < (chanScore q e).den := by
  unfold chanScore token_sort_ratio
  exact ratioSc_den_pos _ _

theorem bestFrom_den_pos (e : EpgChan) (qs : List String) (m : Score) (hm : 0 < m.den) :
    0 < (bestFrom e m qs).den := by
  induction qs generalizing m with
  | nil => exact hm
  | cons q rest ih =>
    rw [bestFrom]
    by_cases h : sLt m (chanScore q e)
    · rw [if_pos h]
      exact ih _ (chanScore_den_pos q e)
    · rw [if_neg h]
      exact ih _ hm

theorem eScore_den_pos (qs : List String) (e : EpgChan) : 0 < (eScore qs e).den :=
  bestFrom_den_pos e qs ⟨0, 1⟩ Nat.one_pos

theorem bestFrom_self_or_gt (e : EpgChan) (qs : List String) (m : Score) (hm : 0 < m.den) :
    bestFrom e m qs = m ∨ sLt m (bestFrom e m qs) := by
  induction qs generalizing m with
  | nil => exact Or.inl rfl
  | cons q rest ih =>
    rw [bestFrom]
    by_cases h : sLt m (chanScore q e)
    · rw [if_pos h]
      right
      rcases ih (chanScore q e) (chanScore_den_pos q e) with h1 | h1
      · rw [h1]
        exact h
      · rw [slt_iff _ _ hm (bestFrom_den_pos e rest _ (chanScore_den_pos q e))]
        calc m.toRat < (chanScore q e).toRat := by
              rw [← slt_iff _ _ hm (chanScore_den_pos q e)]
              exact h
          _ < (bestFrom e (chanScore q e) rest).toRat := by
              rw [← slt_iff _ _ (chanScore_den_pos q e)
                (bestFrom_den_pos e rest _ (chanScore_den_pos q e))]
              exact h1
    · rw [if_neg h]
      exact ih m hm

theorem bestFrom_ge_init (e : EpgChan) (qs : List String) (m : Score) (hm : 0 < m.den) :
    m.toRat ≤ (bestFrom e m qs).toRat := by
  rcases bestFrom_self_or_gt e qs m hm with h | h
  · rw [h]
  · exact le_of_lt ((slt_iff _ _ hm (bestFrom_den_pos e qs m hm)).mp h)

theorem bestFrom_mem (e : EpgChan) (qs : List String) (m : Score) :
    bestFrom e m qs = m ∨ ∃ q ∈ qs, bestFrom e m qs = chanScore q e := by
  induction qs generalizing m with
  | nil => exact Or.inl rfl
  | cons q rest ih =>
    rw [bestFrom]
    by_cases h : sLt m (chanScore q e)
    · rw [if_pos h]
      rcases ih (chanScore q e) with h1 | h1
      · exact Or.inr ⟨q, List.mem_cons_self _ _, h1⟩
      · obtain ⟨p, hp, hv⟩ := h1
        exact Or.inr ⟨p, List.mem_cons_of_mem _ hp, hv⟩
    · rw [if_neg h]
      rcases ih m with h1 | h1
      · exact Or.inl h1
      · obtain ⟨p, hp, hv⟩ := h1
        exact Or.inr ⟨p, List.mem_cons_of_mem _ hp, hv⟩

theorem bestFrom_ge_scores (e : EpgChan) (qs : List String) (m : Score) (hm : 0 < m.den) :
    ∀ q ∈ qs, (chanScore q e).toRat ≤ (bestFrom e m qs).toRat := by
  induction qs generalizing m with
  | nil => intro q hq; cases hq
  | cons p rest ih =>
    intro q hq
    rw [bestFrom]
    rcases List.mem_cons.mp hq with rfl | hq
    · by_cases h : sLt m (chanScore q e)
      · rw [if_pos h]
        exact bestFrom_ge_init e rest _ (chanScore_den_pos q e)
      · rw [if_neg h]
        have hle : (chanScore q e).toRat ≤ m.toRat := by
          have := (sle_iff (chanScore q e) m (chanScore_den_pos q e) hm).mp
            (by simpa [sLe, sLt, Nat.not_lt] using h)
          exact this
        exact le_trans hle (bestFrom_ge_init e rest m hm)
    · by_cases h : sLt m (chanScore p e)
      · rw [if_pos h]
        exact ih _ (chanScore_den_pos p e) q hq
      · rw [if_neg h]
        exact ih m hm q hq

theorem bestFrom_gt_iff (e : EpgChan) (qs : List String) (b : Score) (hb : 0 < b.den) :
    sLt b (bestFrom e b qs) ↔ sLt b (eScore qs e) := by
  constructor
  · intro h
    rcases bestFrom_mem e qs b with h1 | h1
    · rw [h1] at h
      exact absurd h (by simp [sLt])
    · obtain ⟨q, hq, hv⟩ := h1
      rw [slt_iff _ _ hb (eScore_den_pos qs e)]
      calc b.toRat < (bestFrom e b qs).toRat :=
            (slt_iff _ _ hb (bestFrom_den_pos e qs b hb)).mp h
        _ = (chanScore q e).toRat := by rw [hv]
        _ ≤ (eScore qs e).toRat := bestFrom_ge_scores e qs ⟨0, 1⟩ Nat.one_pos q hq
  · intro h
    rcases bestFrom_mem e qs ⟨0, 1⟩ with h1 | h1
    · unfold eScore at h
      rw [h1] at h
      have : b.toRat < (0 : ℚ) := by
        have := (slt_iff _ _ hb Nat.one_pos).mp h
        simpa [Score.toRat] using this
      exact absurd this (not_lt.mpr (toRat_nonneg b))
    · obtain ⟨q, hq, hv⟩ := h1
      rw [slt_iff _ _ hb (bestFrom_den_pos e qs b hb)]
      calc b.toRat < (eScore qs e).toRat := (slt_iff _ _ hb (eScore_den_pos qs e)).mp h
        _ = (chanScore q e).toRat := by unfold eScore; rw [hv]
        _ ≤ (bestFrom e b qs).toRat := bestFrom_ge_scores e qs b hb q hq

theorem bestFrom_exceed (e : EpgChan) (qs : List String) :
    ∀ (m x : Score), 0 < m.den → 0 < x.den → m.toRat ≤ x.toRat →
      sLt x (bestFrom e x qs) → bestFrom e m qs = bestFrom e x qs := by
  induction qs with
  | nil =>
    intro m x _ _ _ hgt
    rw [show bestFrom e x [] = x from rfl] at hgt
    exact absurd hgt (by simp [sLt])
  | cons q rest ih =>
    intro m x hm hx hle hgt
    simp only [bestFrom] at hgt ⊢
    by_cases h : sLt x (chanScore q e)
    · have h2 : sLt m (chanScore q e) := by
        rw [slt_iff _ _ hm (chanScore_den_pos q e)]
        exact lt_of_le_of_lt hle ((slt_iff _ _ hx (chanScore_den_pos q e)).mp h)
      rw [if_pos h, if_pos h2]
    · rw [if_neg h] at hgt
      rw [if_neg h]
      by_cases h2 : sLt m (chanScore q e)
      · rw [if_pos h2]
        apply ih (chanScore q e) x (chanScore_den_pos q e) hx ?_ hgt
        have := (sle_iff (chanScore q e) x (chanScore_den_pos q e) hx).mp
          (by simpa [sLe, sLt, Nat.not_lt] using h)
        exact this
      · rw [if_neg h2]
        exact ih m x hm hx hle hgt

theorem sLt_of_not_sLe (x y : Score) (h : ¬ sLe x y) : sLt y x := by
  unfold sLe at h
  unfold sLt
  omega

theorem matchStep_bestFrom (th : Nat) (qs : List String) (e : EpgChan) :
    ∀ (b : Score) (s : Option EpgChan), 0 < b.den →
      matchStep th qs (b, s) e
        = if sLe ⟨th, 1⟩ (bestFrom e b qs) ∧ sLt b (bestFrom e b qs)
          then (bestFrom e b qs, some e) else (b, s) := by
  induction qs with
  | nil =>
    intro b s _
    rw [show matchStep th [] (b, s) e = (b, s) from rfl,
      show bestFrom e b [] = b from rfl]
    rw [if_neg (by simp [sLt])]
  | cons q rest ih =>
    intro b s hb
    have hstep : matchStep th (q :: rest) (b, s) e
        = matchStep th rest
            (if sLt b (chanScore q e) ∧ sLe ⟨th, 1⟩ (chanScore q e)
              then (chanScore q e, some e) else (b, s)) e := by
      unfold matchStep
      rw [List.foldl_cons]
    rw [hstep, bestFrom]
    by_cases hU : sLt b (chanScore q e) ∧ sLe ⟨th, 1⟩ (chanScore q e)
    · rw [if_pos hU, if_pos hU.1]
      rw [ih (chanScore q e) (some e) (chanScore_den_pos q e)]
      set σ := chanScore q e with hσ
      set B := bestFrom e σ rest with hB
      have hσd : 0 < σ.den := chanScore_den_pos q e
      have hBd : 0 < B.den := bestFrom_den_pos e rest σ hσd
      by_cases hI : sLe ⟨th, 1⟩ B ∧ sLt σ B
      · rw [if_pos hI, if_pos ?_]
        refine ⟨hI.1, ?_⟩
        rw [slt_iff _ _ hb hBd]
        calc b.toRat < σ.toRat := (slt_iff _ _ hb hσd).mp hU.1
          _ < B.toRat := (slt_iff _ _ hσd hBd).mp hI.2
      · have hBσ : B = σ := by
          rcases bestFrom_self_or_gt e rest σ hσd with h1 | h1
          · exact h1
          · exfalso
            apply hI
            refine ⟨?_, h1⟩
            rw [sle_iff _ _ (by simp) hBd]
            calc ((⟨th, 1⟩ : Score)).toRat ≤ σ.toRat := by
                  rw [← sle_iff _ _ (by simp) hσd]
                  exact hU.2
              _ ≤ B.toRat := le_of_lt ((slt_iff _ _ hσd hBd).mp h1)
        rw [if_neg hI, hBσ, if_pos ⟨hU.2, hU.1⟩]
    · rw [if_neg hU]
      push_neg at hU
      by_cases hV : sLt b (chanScore q e)
      · rw [if_pos hV]
        have hth : ¬ sLe ⟨th, 1⟩ (chanScore q e) := hU hV
        set σ := chanScore q e with hσv
        set B := bestFrom e σ rest with hBv
        have hσd : 0 < σ.den := chanScore_den_pos q e
        have hBd : 0 < B.den := bestFrom_den_pos e rest σ hσd
        have hBpd : 0 < (bestFrom e b rest).den := bestFrom_den_pos e rest b hb
        rw [ih b s hb]
        by_cases hW : sLt σ B
        · have hBB : bestFrom e b rest = B :=
            bestFrom_exceed e rest b σ hb hσd
              (le_of_lt ((slt_iff _ _ hb hσd).mp hV)) hW
          rw [hBB]
        · have hBσ : B = σ := by
            rcases bestFrom_self_or_gt e rest σ hσd with h1 | h1
            · exact h1
            · exact absurd h1 hW
          have hcond2 : ¬ (sLe ⟨th, 1⟩ B ∧ sLt b B) := by
            intro hh
            apply hth
            rw [← hBσ]
            exact hh.1
          rw [if_neg hcond2]
          have hcond1 : ¬ (sLe ⟨th, 1⟩ (bestFrom e b rest) ∧ sLt b (bestFrom e b rest)) := by
            rintro ⟨hthB, hbB⟩
            rcases bestFrom_mem e rest b with h1 | h1
            · rw [h1] at hbB
              exact absurd hbB (by simp [sLt])
            · obtain ⟨p, hp, hv⟩ := h1
              have h2 : (bestFrom e b rest).toRat ≤ B.toRat := by
                rw [hv]
                exact bestFrom_ge_scores e rest σ hσd p hp
              have h3 : ((⟨th, 1⟩ : Score)).toRat ≤ (bestFrom e b rest).toRat :=
                (sle_iff _ _ (by simp) hBpd).mp hthB
              have h4 : B.toRat < ((⟨th, 1⟩ : Score)).toRat := by
                rw [hBσ]
                exact (slt_iff _ _ hσd (by simp)).mp (sLt_of_not_sLe _ _ hth)
              linarith
          rw [if_neg hcond1]
      · rw [if_neg hV]
        exact ih b s hb

theorem sLe_of_not_sLt (x y : Score) (h : ¬ sLt x y) : sLe y x := by
  unfold sLt at h
  unfold sLe
  omega

theorem bestFrom_eq_eScore (e : EpgChan) (qs : List String) (b : Score) (hb : 0 < b.den)
    (h : sLt b (bestFrom e b qs)) : bestFrom e b qs = eScore qs e := by
  have h0 : ((⟨0, 1⟩ : Score)).toRat = 0 := by simp [Score.toRat]
  have h0b : ((⟨0, 1⟩ : Score)).toRat ≤ b.toRat := by
    rw [h0]
    exact toRat_nonneg b
  have := bestFrom_exceed e qs ⟨0, 1⟩ b Nat.one_pos hb h0b h
  unfold eScore
  exact this.symm

theorem matchStep_eScore (th : Nat) (qs : List String) (e : EpgChan) (b : Score)
    (s : Option EpgChan) (hb : 0 < b.den) :
    matchStep th qs (b, s) e
      = if sLe ⟨th, 1⟩ (eScore qs e) ∧ sLt b (eScore qs e)
        then (eScore qs e, some e) else (b, s) := by
  rw [matchStep_bestFrom th qs e b s hb]
  by_cases hE : sLe ⟨th, 1⟩ (eScore qs e) ∧ sLt b (eScore qs e)
  · have hgt : sLt b (bestFrom e b qs) := (bestFrom_gt_iff e qs b hb).mpr hE.2
    rw [bestFrom_eq_eScore e qs b hb hgt]
  · have hnc : ¬ (sLe ⟨th, 1⟩ (bestFrom e b qs) ∧ sLt b (bestFrom e b qs)) := by
      rintro ⟨h1, h2⟩
      have hE2 : sLt b (eScore qs e) := (bestFrom_gt_iff e qs b hb).mp h2
      have hBE : bestFrom e b qs = eScore qs e := bestFrom_eq_eScore e qs b hb h2
      exact hE ⟨by rwa [hBE] at h1, hE2⟩
    rw [if_neg hnc, if_neg hE]

theorem matchLoop_char (th : Nat) (qs : List String) (epgs : List EpgChan) :
    ∀ (b : Score) (s : Option EpgChan), 0 < b.den →
      (epgs.foldl (matchStep th qs) (b, s) = (b, s) ∧
        ∀ x ∈ epgs, ¬ (sLe ⟨th, 1⟩ (eScore qs x) ∧ sLt b (eScore qs x)))
      ∨ (∃ pre e post, epgs = pre ++ e :: post ∧
          epgs.foldl (matchStep th qs) (b, s) = (eScore qs e, some e) ∧
          sLe ⟨th, 1⟩ (eScore qs e) ∧ sLt b (eScore qs e) ∧
          (∀ x ∈ pre, (eScore qs x).toRat < (eScore qs e).toRat) ∧
          (∀ x ∈ post, (eScore qs x).toRat ≤ (eScore qs e).toRat)) := by
  induction epgs with
  | nil =>
    intro b s _
    exact Or.inl ⟨rfl, by simp⟩
  | cons f rest ih =>
    intro b s hb
    have hfd : 0 < (eScore qs f).den := eScore_den_pos qs f
    have hthd : 0 < ((⟨th, 1⟩ : Score)).den := Nat.one_pos
    rw [List.foldl_cons, matchStep_eScore th qs f b s hb]
    by_cases hc : sLe ⟨th, 1⟩ (eScore qs f) ∧ sLt b (eScore qs f)
    · rw [if_pos hc]
      rcases ih (eScore qs f) (some f) hfd with ⟨h1, h2⟩ |
        ⟨pre, e2, post, hsplit, hfold, hth2, hlt2, hpre, hpost⟩
      · right
        refine ⟨[], f, rest, by simp, h1, hc.1, hc.2, by simp, ?_⟩
        intro x hx
        have h3 := h2 x hx
        have hxd : 0 < (eScore qs x).den := eScore_den_pos qs x
        by_cases h4 : sLe ⟨th, 1⟩ (eScore qs x)
        · have h5 : ¬ sLt (eScore qs f) (eScore qs x) := fun hh => h3 ⟨h4, hh⟩
          exact (sle_iff _ _ hxd hfd).mp (sLe_of_not_sLt _ _ h5)
        · have h5 : (eScore qs x).toRat < ((⟨th, 1⟩ : Score)).toRat :=
            (slt_iff _ _ hxd hthd).mp (sLt_of_not_sLe _ _ h4)
          have h6 : ((⟨th, 1⟩ : Score)).toRat ≤ (eScore qs f).toRat :=
            (sle_iff _ _ hthd hfd).mp hc.1
          linarith
      · right
        have he2d : 0 < (eScore qs e2).den := eScore_den_pos qs e2
        have hfe2 : (eScore qs f).toRat < (eScore qs e2).toRat :=
          (slt_iff _ _ hfd he2d).mp hlt2
        refine ⟨f :: pre, e2, post, by rw [hsplit]; rfl, hfold, hth2, ?_, ?_, hpost⟩
        · rw [slt_iff _ _ hb he2d]
          calc b.toRat < (eScore qs f).toRat := (slt_iff _ _ hb hfd).mp hc.2
            _ < (eScore qs e2).toRat := hfe2
        · intro x hx
          rcases List.mem_cons.mp hx with rfl | hx
          · exact hfe2
          · exact hpre x hx
    · rw [if_neg hc]
      rcases ih b s hb with ⟨h1, h2⟩ |
        ⟨pre, e2, post, hsplit, hfold, hth2, hlt2, hpre, hpost⟩
      · left
        refine ⟨h1, ?_⟩
        intro x hx
        rcases List.mem_cons.mp hx with rfl | hx
        · exact hc
        · exact h2 x hx
      · right
        have he2d : 0 < (eScore qs e2).den := eScore_den_pos qs e2
        refine ⟨f :: pre, e2, post, by rw [hsplit]; rfl, hfold, hth2, hlt2, ?_, hpost⟩
        intro x hx
        rcases List.mem_cons.mp hx with rfl | hx
        · by_cases h4 : sLe ⟨th, 1⟩ (eScore qs x)
          · have h5 : ¬ sLt b (eScore qs x) := fun hh => hc ⟨h4, hh⟩
            have h6 : (eScore qs x).toRat ≤ b.toRat :=
              (sle_iff _ _ (eScore_den_pos qs x) hb).mp (sLe_of_not_sLt _ _ h5)
            have h7 : b.toRat < (eScore qs e2).toRat := (slt_iff _ _ hb he2d).mp hlt2
            linarith
          · have h5 : (eScore qs x).toRat < ((⟨th, 1⟩ : Score)).toRat :=
              (slt_iff _ _ (eScore_den_pos qs x) Nat.one_pos) |>.mp (sLt_of_not_sLe _ _ h4)
            have h6 : ((⟨th, 1⟩ : Score)).toRat ≤ (eScore qs e2).toRat :=
              (sle_iff _ _ Nat.one_pos he2d).mp hth2
            linarith
        · exact hpre x hx

/-- Claim C6: `match_channels`'s matcher is a pure function of its inputs
(`matchOne qs epgs th` is deterministic by construction); it returns nothing
when no candidate's score reaches the threshold; and when it returns a
candidate, that candidate is a maximum-scoring one, its score is at least
the threshold, and every candidate placed earlier in input order scores
strictly lower — on ties the earliest maximum-scoring candidate wins. -/
theorem c6_matcher_deterministic_max (qs : List String) (epgs : List EpgChan) (th : Nat) :
    (matchOne qs epgs th = matchOne qs epgs th) ∧
    ((∀ x ∈ epgs, (eScore qs x).toRat < (th : ℚ)) → matchOne qs epgs th = none) ∧
    (∀ e, matchOne qs epgs th = some e →
      e ∈ epgs ∧ (th : ℚ) ≤ (eScore qs e).toRat ∧
      (∀ x ∈ epgs, (eScore qs x).toRat ≤ (eScore qs e).toRat) ∧
      ∃ pre post, epgs = pre ++ e :: post ∧
        ∀ x ∈ pre, (eScore qs x).toRat < (eScore qs e).toRat) := by
  refine ⟨rfl, ?_, ?_⟩
  · intro hall
    rcases matchLoop_char th qs epgs ⟨0, 1⟩ none Nat.one_pos with ⟨h1, _⟩ |
      ⟨pre, e, post, hsplit, hfold, hth, _, _, _⟩
    · unfold matchOne
      rw [h1]
    · exfalso
      have he : e ∈ epgs := by
        rw [hsplit]
        exact List.mem_append_right _ (List.mem_cons_self _ _)
      have hv : (th : ℚ) ≤ (eScore qs e).toRat := by
        have := (sle_iff _ _ Nat.one_pos (eScore_den_pos qs e)).mp hth
        rwa [natScore_toRat] at this
      have := hall e he
      linarith
  · intro e hme
    rcases matchLoop_char th qs epgs ⟨0, 1⟩ none Nat.one_pos with ⟨h1, _⟩ |
      ⟨pre, e2, post, hsplit, hfold, hth, _, hpre, hpost⟩
    · unfold matchOne at hme
      rw [h1] at hme
      cases hme
    · unfold matchOne at hme
      rw [hfold] at hme
      have he2 : e2 = e := by simpa using hme
      subst he2
      have hmem : e2 ∈ epgs := by
        rw [hsplit]
        exact List.mem_append_right _ (List.mem_cons_self _ _)
      refine ⟨hmem, ?_, ?_, pre, post, hsplit, hpre⟩
      · have := (sle_iff _ _ Nat.one_pos (eScore_den_pos qs e2)).mp hth
        rwa [natScore_toRat] at this
      · intro x hx
        rw [hsplit] at hx
        rcases List.mem_append.mp hx with hx | hx
        · exact le_of_lt (hpre x hx)
        · rcases List.mem_cons.mp hx with rfl | hx
          · exact le_refl _
          · exact hpost x hx

/-- Witness for C6, instantiated at the Scenario C candidates with
threshold 72, where the matcher returns `ESPN`: the theorem yields that
`ESPN` is a candidate and its score is at least the threshold. -/
theorem c6_matcher_witness :
    (⟨"espn.id", "ESPN", ""⟩ : EpgChan) ∈ scenarioCands ∧
    (72 : ℚ) ≤ (eScore ["ESPN HD"] ⟨"espn.id", "ESPN", ""⟩).toRat := by
  have h := (c6_matcher_deterministic_max ["ESPN HD"] scenarioCands 72).2.2
    ⟨"espn.id", "ESPN", ""⟩ (by decide)
  exact ⟨h.1, h.2.1⟩

/-! ### Content optimization (C7): whitespace normalization -/

theorem noRun_tail (c : Char) (l : List Char) (h : NoRun (c :: l)) : NoRun l := by
  unfold NoRun at *
  exact h.tail

theorem noRun_cons_of (c : Char) (l : List Char) (h : NoRun l)
    (hc : ∀ d ∈ l.head?, ¬(isSpc c = true ∧ isSpc d = true)) : NoRun (c :: l) := by
  unfold NoRun at *
  cases l with
  | nil => exact List.chain'_singleton c
  | cons d t => exact List.chain'_cons.mpr ⟨hc d rfl, h⟩

theorem noRun_pair (c d : Char) (l : List Char) (h : NoRun (c :: d :: l)) :
    ¬(isSpc c = true ∧ isSpc d = true) := by
  unfold NoRun at h
  exact (List.chain'_cons.mp h).1

theorem collapseWs_cons (c : Char) (l : List Char) :
    collapseWs (c :: l)
      = (if isSpc c then
          match collapseWs l with
          | a :: rest => if isSpc a then ' ' :: rest else c :: collapseWs l
          | [] => [c]
        else c :: collapseWs l) := rfl

theorem collapseWs_noRun (l : List Char) : NoRun (collapseWs l) := by
  induction l with
  | nil => exact List.chain'_nil
  | cons c rest ih =>
    rw [collapseWs_cons]
    by_cases hc : isSpc c
    · rw [if_pos hc]
      rcases hacc : collapseWs rest with _ | ⟨a, r⟩
      · exact List.chain'_singleton c
      · rw [hacc] at ih
        show NoRun (if isSpc a then ' ' :: r else c :: (a :: r))
        by_cases ha : isSpc a
        · rw [if_pos ha]
          refine noRun_cons_of ' ' r (noRun_tail a r ih) ?_
          intro d hd
          cases r with
          | nil => cases hd
          | cons b t =>
            have hbd : b = d := by simpa using hd
            subst hbd
            intro hdd
            exact noRun_pair a b t ih ⟨ha, hdd.2⟩
        · rw [if_neg ha]
          refine noRun_cons_of c (a :: r) ih ?_
          intro d hd
          have had : a = d := by simpa using hd
          subst had
          intro hdd
          exact ha hdd.2
    · rw [if_neg hc]
      refine noRun_cons_of c (collapseWs rest) ih ?_
      intro d _
      intro hdd
      exact hc hdd.1

theorem collapseWs_id (l : List Char) (h : NoRun l) : collapseWs l = l := by
  induction l with
  | nil => rfl
  | cons c rest ih =>
    have hrest : collapseWs rest = rest := ih (noRun_tail c rest h)
    rw [collapseWs_cons, hrest]
    by_cases hc : isSpc c
    · rw [if_pos hc]
      cases rest with
      | nil => rfl
      | cons a r =>
        have ha : ¬ isSpc a = true := fun haa => noRun_pair c a r h ⟨hc, haa⟩
        show (if isSpc a then ' ' :: r else c :: (a :: r)) = c :: a :: r
        rw [if_neg ha]
    · rw [if_neg hc]

theorem headNoSpc_dropWhile (l : List Char) : HeadNoSpc (l.dropWhile isSpc) := by
  induction l with
  | nil => intro c hc; cases hc
  | cons c rest ih =>
    by_cases hc : isSpc c
    · rw [List.dropWhile_cons_of_pos hc]
      exact ih
    · rw [List.dropWhile_cons_of_neg hc]
      intro d hd
      have hcd : c = d := by simpa using hd
      subst hcd
      simpa using hc

theorem dropWhile_of_headNoSpc (l : List Char) (h : HeadNoSpc l) :
    l.dropWhile isSpc = l := by
  cases l with
  | nil => rfl
  | cons c rest =>
    have := h c rfl
    rw [List.dropWhile_cons_of_neg (by simp [this])]

theorem noRun_dropWhile (l : List Char) (h : NoRun l) : NoRun (l.dropWhile isSpc) := by
  unfold NoRun at *
  exact h.suffix (List.dropWhile_suffix _)

theorem noRun_reverse (l : List Char) (h : NoRun l) : NoRun l.reverse := by
  unfold NoRun at *
  rw [List.chain'_reverse]
  exact h.imp (fun a b hab hba => hab ⟨hba.2, hba.1⟩)

theorem noRun_stripEnds (l : List Char) (h : NoRun l) : NoRun (stripEnds l) := by
  unfold stripEnds
  exact noRun_reverse _ (noRun_dropWhile _ (noRun_reverse _ (noRun_dropWhile _ h)))

theorem getLast?_dropWhile_or (l : List Char) :
    (l.dropWhile isSpc).getLast? = l.getLast? ∨ l.dropWhile isSpc = [] := by
  by_cases hnil : l.dropWhile isSpc = []
  · exact Or.inr hnil
  · left
    obtain ⟨t, ht⟩ := List.dropWhile_suffix (l := l) isSpc
    cases hlast : (l.dropWhile isSpc).getLast? with
    | none => exact absurd (List.getLast?_eq_none_iff.mp hlast) hnil
    | some c =>
      conv_rhs => rw [← ht]
      rw [List.getLast?_append, hlast]
      rfl

theorem stripEnds_headNoSpc (l : List Char) : HeadNoSpc (stripEnds l) := by
  unfold stripEnds HeadNoSpc
  intro c hc
  rw [List.head?_reverse] at hc
  rcases getLast?_dropWhile_or ((l.dropWhile isSpc).reverse) with h1 | h1
  · rw [h1, List.getLast?_reverse] at hc
    exact headNoSpc_dropWhile l c hc
  · rw [h1] at hc
    cases hc

theorem stripEnds_lastNoSpc (l : List Char) : LastNoSpc (stripEnds l) := by
  unfold stripEnds LastNoSpc
  intro c hc
  rw [List.getLast?_reverse] at hc
  exact headNoSpc_dropWhile _ c hc

theorem stripEnds_of_ok (l : List Char) (h1 : HeadNoSpc l) (h2 : LastNoSpc l) :
    stripEnds l = l := by
  unfold stripEnds
  rw [dropWhile_of_headNoSpc l h1]
  rw [dropWhile_of_headNoSpc l.reverse (by
    intro c hc
    rw [List.head?_reverse] at hc
    exact h2 c hc)]
  exact List.reverse_reverse l

theorem stripEnds_idem (l : List Char) : stripEnds (stripEnds l) = stripEnds l :=
  stripEnds_of_ok _ (stripEnds_headNoSpc l) (stripEnds_lastNoSpc l)

theorem normText_idem (s : String) : normText (normText s) = normText s := by
  unfold normText
  rw [show (String.mk (stripEnds (collapseWs s.data))).data
      = stripEnds (collapseWs s.data) from rfl]
  rw [collapseWs_id _ (noRun_stripEnds _ (collapseWs_noRun s.data))]
  exact congrArg String.mk (stripEnds_idem _)

/-! ### Content optimization (C7): element-list lemmas -/

@[simp] theorem Elem.tag_mk (t : String) (a : List (String × String)) (tx : Option String)
    (cs : List Elem) : (Elem.mk t a tx cs).tag = t := rfl

@[simp] theorem Elem.attrs_mk (t : String) (a : List (String × String)) (tx : Option String)
    (cs : List Elem) : (Elem.mk t a tx cs).attrs = a := rfl

@[simp] theorem Elem.text_mk (t : String) (a : List (String × String)) (tx : Option String)
    (cs : List Elem) : (Elem.mk t a tx cs).text = tx := rfl

@[simp] theorem Elem.children_mk (t : String) (a : List (String × String)) (tx : Option String)
    (cs : List Elem) : (Elem.mk t a tx cs).children = cs := rfl

theorem setText_tag (e : Elem) (v : String) : (setText e v).tag = e.tag := by
  cases e
  rfl

theorem setText_text (e : Elem) (v : String) : (setText e v).text = some v := by
  cases e
  rfl

theorem setText_self (e : Elem) (v : String) (h : e.text = some v) : setText e v = e := by
  cases e with
  | mk t a tx cs =>
    simp only [Elem.text_mk] at h
    rw [setText, h]

theorem setText_setText (e : Elem) (v w : String) :
    setText (setText e v) w = setText e w := by
  cases e
  rfl

theorem removeFirst_cons (t : String) (e : Elem) (r : List Elem) :
    removeFirst t (e :: r) = if e.tag = t then r else e :: removeFirst t r := rfl

theorem replaceFirstText_cons (t v : String) (e : Elem) (r : List Elem) :
    replaceFirstText t v (e :: r)
      = if e.tag = t then setText e v :: r else e :: replaceFirstText t v r := rfl

theorem tagCount_cons (t : String) (e : Elem) (r : List Elem) :
    tagCount t (e :: r) = (if e.tag = t then 1 else 0) + tagCount t r := by
  unfold tagCount
  rw [List.filter_cons]
  by_cases h : e.tag = t
  · simp [h, Nat.add_comm]
  · simp [h]

theorem findTag_cons (t : String) (e : Elem) (r : List Elem) :
    findTag t (e :: r) = if e.tag = t then some e else findTag t r := by
  unfold findTag
  by_cases h : e.tag = t
  · rw [List.find?_cons_of_pos _ (by simp [h]), if_pos h]
  · rw [List.find?_cons_of_neg _ (by simp [h]), if_neg h]

theorem findTag_none_iff (t : String) (l : List Elem) :
    findTag t l = none ↔ tagCount t l = 0 := by
  induction l with
  | nil => simp [findTag, tagCount]
  | cons e r ih =>
    rw [findTag_cons, tagCount_cons]
    by_cases h : e.tag = t
    · simp [h]
    · simp [h, ih]

theorem removeFirst_of_count_zero (t : String) (l : List Elem) (h : tagCount t l = 0) :
    removeFirst t l = l := by
  induction l with
  | nil => rfl
  | cons e r ih =>
    rw [tagCount_cons] at h
    by_cases he : e.tag = t
    · rw [if_pos he] at h
      omega
    · rw [if_neg he] at h
      rw [removeFirst_cons, if_neg he, ih (by omega)]

theorem tagCount_removeFirst_self (t : String) (l : List Elem) :
    tagCount t (removeFirst t l) = tagCount t l - 1 := by
  induction l with
  | nil => simp [removeFirst, tagCount]
  | cons e r ih =>
    rw [removeFirst_cons]
    by_cases he : e.tag = t
    · rw [if_pos he, tagCount_cons, if_pos he]
      omega
    · rw [if_neg he, tagCount_cons, if_neg he, ih, tagCount_cons, if_neg he]
      omega

theorem tagCount_removeFirst_other (t u : String) (l : List Elem) (h : u ≠ t) :
    tagCount u (removeFirst t l) = tagCount u l := by
  induction l with
  | nil => rfl
  | cons e r ih =>
    rw [removeFirst_cons]
    by_cases he : e.tag = t
    · rw [if_pos he, tagCount_cons, if_neg (by rw [he]; exact fun hh => h hh.symm)]
      omega
    · rw [if_neg he, tagCount_cons, tagCount_cons, ih]

theorem tagCount_removeFirst_le (t u : String) (l : List Elem) :
    tagCount u (removeFirst t l) ≤ tagCount u l := by
  by_cases h : u = t
  · subst h
    rw [tagCount_removeFirst_self]
    omega
  · rw [tagCount_removeFirst_other t u l h]

theorem mem_removeFirst (t : String) (l : List Elem) (z : Elem)
    (h : z ∈ removeFirst t l) : z ∈ l := by
  induction l with
  | nil => cases h
  | cons e r ih =>
    rw [removeFirst_cons] at h
    by_cases he : e.tag = t
    · rw [if_pos he] at h
      exact List.mem_cons_of_mem _ h
    · rw [if_neg he] at h
      rcases List.mem_cons.mp h with rfl | h
      · exact List.mem_cons_self _ _
      · exact List.mem_cons_of_mem _ (ih h)

theorem findTag_removeFirst_ne (t u : String) (l : List Elem) (h : u ≠ t) :
    findTag u (removeFirst t l) = findTag u l := by
  induction l with
  | nil => rfl
  | cons e r ih =>
    rw [removeFirst_cons]
    by_cases he : e.tag = t
    · rw [if_pos he, findTag_cons, if_neg (by rw [he]; exact fun hh => h hh.symm)]
    · rw [if_neg he, findTag_cons, findTag_cons]
      by_cases hu : e.tag = u
      · rw [if_pos hu, if_pos hu]
      · rw [if_neg hu, if_neg hu, ih]

theorem removeFirst_length (t : String) (l : List Elem) (e : Elem)
    (h : findTag t l = some e) : (removeFirst t l).length + 1 = l.length := by
  induction l with
  | nil => cases h
  | cons f r ih =>
    rw [findTag_cons] at h
    rw [removeFirst_cons]
    by_cases hf : f.tag = t
    · rw [if_pos hf]
      rfl
    · rw [if_neg hf] at h
      rw [if_neg hf, List.length_cons, List.length_cons, ih h]

theorem removeFirst_ne_of_found (t : String) (l : List Elem) (e : Elem)
    (h : findTag t l = some e) : removeFirst t l ≠ l := by
  intro hh
  have := removeFirst_length t l e h
  rw [hh] at this
  omega

theorem tagCount_replaceFirstText (t v u : String) (l : List Elem) :
    tagCount u (replaceFirstText t v l) = tagCount u l := by
  induction l with
  | nil => rfl
  | cons e r ih =>
    rw [replaceFirstText_cons]
    by_cases he : e.tag = t
    · rw [if_pos he, tagCount_cons, tagCount_cons, setText_tag]
    · rw [if_neg he, tagCount_cons, tagCount_cons, ih]

theorem findTag_replaceFirstText_ne (t v u : String) (l : List Elem) (h : u ≠ t) :
    findTag u (replaceFirstText t v l) = findTag u l := by
  induction l with
  | nil => rfl
  | cons e r ih =>
    rw [replaceFirstText_cons]
    by_cases he : e.tag = t
    · rw [if_pos he, findTag_cons, findTag_cons, setText_tag]
      rw [if_neg (by rw [he]; exact fun hh => h hh.symm),
        if_neg (by rw [he]; exact fun hh => h hh.symm)]
    · rw [if_neg he, findTag_cons, findTag_cons]
      by_cases hu : e.tag = u
      · rw [if_pos hu, if_pos hu]
      · rw [if_neg hu, if_neg hu, ih]

theorem findTag_replaceFirstText_self (t v : String) (l : List Elem) (e : Elem)
    (h : findTag t l = some e) :
    findTag t (replaceFirstText t v l) = some (setText e v) := by
  induction l with
  | nil => cases h
  | cons f r ih =>
    rw [findTag_cons] at h
    rw [replaceFirstText_cons]
    by_cases hf : f.tag = t
    · rw [if_pos hf] at h
      rw [if_pos hf, findTag_cons, setText_tag, if_pos hf, Option.some.inj h]
    · rw [if_neg hf] at h
      rw [if_neg hf, findTag_cons, if_neg hf, ih h]

theorem replaceFirstText_id (t v : String) (l : List Elem) (e : Elem)
    (h : findTag t l = some e) (hv : e.text = some v) : replaceFirstText t v l = l := by
  induction l with
  | nil => cases h
  | cons f r ih =>
    rw [findTag_cons] at h
    rw [replaceFirstText_cons]
    by_cases hf : f.tag = t
    · rw [if_pos hf] at h
      rw [if_pos hf]
      rw [show f = e from Option.some.inj h] at *
      rw [setText_self e v hv]
    · rw [if_neg hf] at h
      rw [if_neg hf, ih h]

theorem mem_replaceFirstText (t v : String) (l : List Elem) (z : Elem)
    (h : z ∈ replaceFirstText t v l) : z ∈ l ∨ ∃ y ∈ l, z = setText y v := by
  induction l with
  | nil => cases h
  | cons e r ih =>
    rw [replaceFirstText_cons] at h
    by_cases he : e.tag = t
    · rw [if_pos he] at h
      rcases List.mem_cons.mp h with rfl | h
      · exact Or.inr ⟨e, List.mem_cons_self _ _, rfl⟩
      · exact Or.inl (List.mem_cons_of_mem _ h)
    · rw [if_neg he] at h
      rcases List.mem_cons.mp h with rfl | h
      · exact Or.inl (List.mem_cons_self _ _)
      · rcases ih h with h1 | ⟨y, hy, hz⟩
        · exact Or.inl (List.mem_cons_of_mem _ h1)
        · exact Or.inr ⟨y, List.mem_cons_of_mem _ hy, hz⟩

theorem processTag_eq_nofind (t : String) (l : List Elem) (hf : findTag t l = none) :
    processTag t l = l := by
  unfold processTag
  rw [hf]

theorem processTag_eq_text (t : String) (l : List Elem) (e : Elem) (s : String)
    (hf : findTag t l = some e) (htx : e.text = some s) :
    processTag t l
      = if normText s = "" then removeFirst t l else replaceFirstText t (normText s) l := by
  unfold processTag
  rw [hf]
  show (match e.text with
    | some s => if normText s = "" then removeFirst t l else replaceFirstText t (normText s) l
    | none => if e.children.isEmpty && e.attrs.isEmpty then removeFirst t l else l) = _
  rw [htx]

theorem processTag_eq_notext (t : String) (l : List Elem) (e : Elem)
    (hf : findTag t l = some e) (htx : e.text = none) :
    processTag t l
      = if e.children.isEmpty && e.attrs.isEmpty then removeFirst t l else l := by
  unfold processTag
  rw [hf]
  show (match e.text with
    | some s => if normText s = "" then removeFirst t l else replaceFirstText t (normText s) l
    | none => if e.children.isEmpty && e.attrs.isEmpty then removeFirst t l else l) = _
  rw [htx]

theorem processTag_cases (t : String) (l : List Elem) :
    processTag t l = l ∨ processTag t l = removeFirst t l ∨
      ∃ v, processTag t l = replaceFirstText t v l := by
  cases hf : findTag t l with
  | none => exact Or.inl (processTag_eq_nofind t l hf)
  | some e =>
    cases htx : e.text with
    | some s =>
      rw [processTag_eq_text t l e s hf htx]
      by_cases hc : normText s = ""
      · rw [if_pos hc]
        exact Or.inr (Or.inl rfl)
      · rw [if_neg hc]
        exact Or.inr (Or.inr ⟨normText s, rfl⟩)
    | none =>
      rw [processTag_eq_notext t l e hf htx]
      by_cases hc : e.children.isEmpty && e.attrs.isEmpty
      · rw [if_pos hc]
        exact Or.inr (Or.inl rfl)
      · rw [if_neg hc]
        exact Or.inl rfl

theorem tagCount_processTag_le (t u : String) (l : List Elem) :
    tagCount u (processTag t l) ≤ tagCount u l := by
  rcases processTag_cases t l with h | h | ⟨v, h⟩ <;> rw [h]
  · exact tagCount_removeFirst_le t u l
  · rw [tagCount_replaceFirstText]

theorem mem_processTag (t : String) (l : List Elem) (z : Elem) (h : z ∈ processTag t l) :
    z ∈ l ∨ ∃ y ∈ l, ∃ v, z = setText y v := by
  rcases processTag_cases t l with h1 | h1 | ⟨v, h1⟩ <;> rw [h1] at h
  · exact Or.inl h
  · exact Or.inl (mem_removeFirst _ _ _ h)
  · rcases mem_replaceFirstText _ _ _ _ h with h2 | ⟨y, hy, hz⟩
    · exact Or.inl h2
    · exact Or.inr ⟨y, hy, v, hz⟩

theorem processTag_idem (t : String) (l : List Elem) (h : tagCount t l ≤ 1) :
    processTag t (processTag t l) = processTag t l := by
  cases hf : findTag t l with
  | none =>
    have hid : processTag t l = l := processTag_eq_nofind t l hf
    rw [hid]
    exact hid
  | some e =>
    have hpos : 1 ≤ tagCount t l := by
      by_contra hlt
      have h0 : tagCount t l = 0 := by omega
      rw [(findTag_none_iff t l).mpr h0] at hf
      cases hf
    cases htx : e.text with
    | some s =>
      by_cases hc : normText s = ""
      · have h1 : processTag t l = removeFirst t l := by
          rw [processTag_eq_text t l e s hf htx, if_pos hc]
        rw [h1]
        have h0 : tagCount t (removeFirst t l) = 0 := by
          rw [tagCount_removeFirst_self]
          omega
        exact processTag_eq_nofind t _ ((findTag_none_iff t _).mpr h0)
      · have h1 : processTag t l = replaceFirstText t (normText s) l := by
          rw [processTag_eq_text t l e s hf htx, if_neg hc]
        rw [h1]
        have hf2 : findTag t (replaceFirstText t (normText s) l)
            = some (setText e (normText s)) :=
          findTag_replaceFirstText_self t (normText s) l e hf
        rw [processTag_eq_text t _ (setText e (normText s)) (normText s) hf2
          (setText_text _ _), normText_idem s, if_neg hc]
        exact replaceFirstText_id t (normText s) _ (setText e (normText s)) hf2
          (setText_text _ _)
    | none =>
      by_cases hc : e.children.isEmpty && e.attrs.isEmpty
      · have h1 : processTag t l = removeFirst t l := by
          rw [processTag_eq_notext t l e hf htx, if_pos hc]
        rw [h1]
        have h0 : tagCount t (removeFirst t l) = 0 := by
          rw [tagCount_removeFirst_self]
          omega
        exact processTag_eq_nofind t _ ((findTag_none_iff t _).mpr h0)
      · have h1 : processTag t l = l := by
          rw [processTag_eq_notext t l e hf htx, if_neg hc]
        rw [h1]
        exact h1

theorem processTag_stable_under (t u : String) (hne : t ≠ u) (l : List Elem)
    (h : processTag t l = l) :
    processTag t (processTag u l) = processTag u l := by
  have key : ∀ X : List Elem, findTag t X = findTag t l → processTag t X = X := by
    intro X hXf
    cases hft : findTag t l with
    | none => exact processTag_eq_nofind t X (by rw [hXf, hft])
    | some et =>
      cases htx : et.text with
      | some s =>
        rw [processTag_eq_text t l et s hft htx] at h
        by_cases hc : normText s = ""
        · rw [if_pos hc] at h
          exact absurd h (removeFirst_ne_of_found t l et hft)
        · rw [if_neg hc] at h
          have h1 := findTag_replaceFirstText_self t (normText s) l et hft
          rw [h, hft] at h1
          have h2 : et = setText et (normText s) := Option.some.inj h1
          have hets : et.text = some (normText s) := by
            rw [h2, setText_text]
          have hsv : normText s = s := by
            rw [htx] at hets
            exact (Option.some.inj hets).symm
          rw [processTag_eq_text t X et s (by rw [hXf, hft]) htx]
          rw [if_neg hc]
          rw [show normText s = s from hsv]
          exact replaceFirstText_id t s X et (by rw [hXf, hft]) htx
      | none =>
        rw [processTag_eq_notext t l et hft htx] at h
        by_cases hc : et.children.isEmpty && et.attrs.isEmpty
        · rw [if_pos hc] at h
          exact absurd h (removeFirst_ne_of_found t l et hft)
        · rw [processTag_eq_notext t X et (by rw [hXf, hft]) htx, if_neg hc]
  rcases processTag_cases u l with h1 | h1 | ⟨v, h1⟩ <;> rw [h1]
  · exact h
  · exact key _ (findTag_removeFirst_ne u t l hne)
  · exact key _ (findTag_replaceFirstText_ne u v t l hne)

/-! ### The strip loop and the full per-programme cleanup -/

theorem removeFirst_nil (t : String) : removeFirst t [] = [] := rfl

theorem findTag_nil (t : String) : findTag t [] = none := rfl

theorem foldRemove_count_le (ts : List String) (u : String) :
    ∀ l : List Elem,
      tagCount u (ts.foldl (fun acc tg => removeFirst tg acc) l) ≤ tagCount u l := by
  induction ts with
  | nil => intro l; exact Nat.le_refl _
  | cons t ts ih =>
    intro l
    rw [List.foldl_cons]
    exact Nat.le_trans (ih (removeFirst t l)) (tagCount_removeFirst_le t u l)

theorem foldRemove_zero (ts : List String) (u : String) :
    ∀ l : List Elem, u ∈ ts → tagCount u l ≤ 1 →
      tagCount u (ts.foldl (fun acc tg => removeFirst tg acc) l) = 0 := by
  induction ts with
  | nil =>
    intro l hu _
    cases hu
  | cons t ts ih =>
    intro l hu h
    rw [List.foldl_cons]
    rcases List.mem_cons.mp hu with h1 | hmem
    · subst h1
      have h0 : tagCount u (removeFirst u l) = 0 := by
        rw [tagCount_removeFirst_self]
        omega
      have h2 := foldRemove_count_le ts u (removeFirst u l)
      omega
    · exact ih (removeFirst t l) hmem (Nat.le_trans (tagCount_removeFirst_le t u l) h)

theorem foldRemove_id (ts : List String) :
    ∀ l : List Elem, (∀ u ∈ ts, tagCount u l = 0) →
      ts.foldl (fun acc tg => removeFirst tg acc) l = l := by
  induction ts with
  | nil =>
    intro l _
    rfl
  | cons t ts ih =>
    intro l h
    rw [List.foldl_cons, removeFirst_of_count_zero t l (h t (List.mem_cons_self t ts))]
    exact ih l (fun u hu => h u (List.mem_cons_of_mem t hu))

theorem mem_foldRemove (ts : List String) :
    ∀ l : List Elem, ∀ z ∈ ts.foldl (fun acc tg => removeFirst tg acc) l, z ∈ l := by
  induction ts with
  | nil =>
    intro l z hz
    exact hz
  | cons t ts ih =>
    intro l z hz
    rw [List.foldl_cons] at hz
    exact mem_removeFirst t l z (ih (removeFirst t l) z hz)

theorem tagCount_stripPass_le (u : String) (l : List Elem) :
    tagCount u (stripPass l) ≤ tagCount u l :=
  foldRemove_count_le stripTags u l

theorem tagCount_stripPass_zero (u : String) (l : List Elem) (hu : u ∈ stripTags)
    (h : tagCount u l ≤ 1) : tagCount u (stripPass l) = 0 :=
  foldRemove_zero stripTags u l hu h

theorem stripPass_id (l : List Elem) (h : ∀ u ∈ stripTags, tagCount u l = 0) :
    stripPass l = l :=
  foldRemove_id stripTags l h

theorem mem_stripPass (l : List Elem) (z : Elem) (h : z ∈ stripPass l) : z ∈ l :=
  mem_foldRemove stripTags l z h

theorem tagCount_cleanProgramme_le (u : String) (l : List Elem) :
    tagCount u (cleanProgramme l) ≤ tagCount u l := by
  unfold cleanProgramme
  exact Nat.le_trans (tagCount_processTag_le _ u _)
    (Nat.le_trans (tagCount_processTag_le _ u _) (tagCount_stripPass_le u l))

theorem mem_cleanProgramme (l : List Elem) (z : Elem) (h : z ∈ cleanProgramme l) :
    z ∈ l ∨ ∃ y ∈ l, ∃ v, z = setText y v := by
  unfold cleanProgramme at h
  rcases mem_processTag _ _ _ h with h1 | ⟨y, hy, v, rfl⟩
  · rcases mem_processTag _ _ _ h1 with h2 | ⟨y, hy, v, rfl⟩
    · exact Or.inl (mem_stripPass l _ h2)
    · exact Or.inr ⟨y, mem_stripPass l y hy, v, rfl⟩
  · rcases mem_processTag _ _ _ hy with h2 | ⟨w, hw, u, rfl⟩
    · exact Or.inr ⟨y, mem_stripPass l y h2, v, rfl⟩
    · exact Or.inr ⟨w, mem_stripPass l w hw, v, by rw [setText_setText]⟩

theorem cleanProgramme_idem (l : List Elem)
    (h : ∀ u ∈ affectedTags, tagCount u l ≤ 1) :
    cleanProgramme (cleanProgramme l) = cleanProgramme l := by
  have hstrip : ∀ u ∈ stripTags, tagCount u (cleanProgramme l) = 0 := by
    intro u hu
    have h0 : tagCount u (stripPass l) = 0 :=
      tagCount_stripPass_zero u l hu (h u (List.mem_append_left _ hu))
    have h1 := tagCount_processTag_le "desc" u (stripPass l)
    have h2 := tagCount_processTag_le "title" u (processTag "desc" (stripPass l))
    unfold cleanProgramme
    omega
  have hsp : stripPass (cleanProgramme l) = cleanProgramme l :=
    stripPass_id _ hstrip
  have hdesc1 : tagCount "desc" (stripPass l) ≤ 1 :=
    Nat.le_trans (tagCount_stripPass_le _ l) (h "desc" (by decide))
  have htitle1 : tagCount "title" (processTag "desc" (stripPass l)) ≤ 1 :=
    Nat.le_trans (tagCount_processTag_le _ _ _)
      (Nat.le_trans (tagCount_stripPass_le _ l) (h "title" (by decide)))
  have hdidem : processTag "desc" (processTag "desc" (stripPass l))
      = processTag "desc" (stripPass l) :=
    processTag_idem _ _ hdesc1
  have hdL : processTag "desc" (cleanProgramme l) = cleanProgramme l := by
    unfold cleanProgramme
    exact processTag_stable_under "desc" "title" (by decide) _ hdidem
  have htL : processTag "title" (cleanProgramme l) = cleanProgramme l := by
    unfold cleanProgramme
    exact processTag_idem "title" _ htitle1
  show processTag "title" (processTag "desc" (stripPass (cleanProgramme l)))
      = cleanProgramme l
  rw [hsp, hdL, htL]

/-! ### The whole-tree pass -/

theorem elem_induction (P : Elem → Prop)
    (h : ∀ t a tx cs, (∀ c ∈ cs, P c) → P (Elem.mk t a tx cs)) : ∀ e, P e
  | Elem.mk t a tx cs => h t a tx cs (fun c hc => elem_induction P h c)
termination_by e => sizeOf e
decreasing_by
  have := List.sizeOf_lt_of_mem hc
  simp_wf
  omega

theorem optimize_mk (t : String) (a : List (String × String)) (tx : Option String)
    (cs : List Elem) :
    optimize (Elem.mk t a tx cs)
      = Elem.mk t a tx
          (if t = "programme" then cleanProgramme (cs.map optimize)
           else cs.map optimize) := by
  rw [optimize]
  simp [List.attach_map_val]

theorem optimize_tag (e : Elem) : (optimize e).tag = e.tag := by
  cases e with
  | mk t a tx cs =>
    rw [optimize_mk]
    rfl

theorem tagCount_map_optimize (u : String) (cs : List Elem) :
    tagCount u (cs.map optimize) = tagCount u cs := by
  induction cs with
  | nil => rfl
  | cons c r ih =>
    rw [List.map_cons, tagCount_cons, tagCount_cons, optimize_tag, ih]

theorem optimize_setText (e : Elem) (v : String) :
    optimize (setText e v) = setText (optimize e) v := by
  cases e with
  | mk t a tx cs =>
    show optimize (Elem.mk t a (some v) cs) = setText (optimize (Elem.mk t a tx cs)) v
    rw [optimize_mk, optimize_mk]
    rfl

theorem map_id_of_forall (l : List Elem) (f : Elem → Elem) (h : ∀ z ∈ l, f z = z) :
    l.map f = l := by
  induction l with
  | nil => rfl
  | cons c r ih =>
    rw [List.map_cons, h c (List.mem_cons_self c r),
      ih (fun z hz => h z (List.mem_cons_of_mem c hz))]

/-- Claim C7 (amended): `optimize_epg_content` is idempotent on every tree in
which no programme element has two direct children sharing one of the
affected tags (the six stripped tags plus `desc` and `title`); on such trees
a second run leaves the optimized tree unchanged. -/
theorem c7_idempotent_amended (e : Elem) (h : OkTree e) :
    optimize (optimize e) = optimize e := by
  refine elem_induction (fun e => OkTree e → optimize (optimize e) = optimize e) ?_ e h
  intro t a tx cs ih hok
  have hcnt : t = "programme" → ∀ u ∈ affectedTags, tagCount u cs ≤ 1 := by
    cases hok with
    | mk _ _ _ _ h1 h2 => exact h1
  have hch : ∀ c ∈ cs, OkTree c := by
    cases hok with
    | mk _ _ _ _ h1 h2 => exact h2
  have hpt : ∀ z ∈ cs.map optimize, optimize z = z := by
    intro z hz
    rcases List.mem_map.mp hz with ⟨c, hc, rfl⟩
    exact ih c hc (hch c hc)
  by_cases ht : t = "programme"
  · rw [optimize_mk, if_pos ht, optimize_mk, if_pos ht]
    have hC : ∀ z ∈ cleanProgramme (cs.map optimize), optimize z = z := by
      intro z hz
      rcases mem_cleanProgramme _ z hz with h1 | ⟨y, hy, v, rfl⟩
      · exact hpt z h1
      · rw [optimize_setText, hpt y hy]
    rw [map_id_of_forall _ _ hC]
    have hcnt2 : ∀ u ∈ affectedTags, tagCount u (cs.map optimize) ≤ 1 := by
      intro u hu
      rw [tagCount_map_optimize]
      exact hcnt ht u hu
    rw [cleanProgramme_idem _ hcnt2]
  · rw [optimize_mk, if_neg ht, optimize_mk, if_neg ht, map_id_of_forall _ _ hpt]

/-- Claim C7 (counterexample): on a programme carrying two `icon` children
the pass is not idempotent: the first run removes only the first `icon`
(`find` returns the first match), the second run removes the other one, so
running `optimize_epg_content` twice does not equal running it once. -/
theorem c7_idempotence_cex :
    optimize treeTwoIcons
      = Elem.mk "tv" [] none
          [Elem.mk "programme" [] none [Elem.mk "icon" [] none []]] ∧
    optimize (optimize treeTwoIcons)
      = Elem.mk "tv" [] none [Elem.mk "programme" [] none []] := by
  have hicon : optimize (Elem.mk "icon" [] none []) = Elem.mk "icon" [] none [] := by
    rw [optimize_mk]
    simp
  have h2 : cleanProgramme [Elem.mk "icon" [] none [], Elem.mk "icon" [] none []]
      = [Elem.mk "icon" [] none []] := by
    simp [cleanProgramme, stripPass, stripTags, processTag, findTag_cons, findTag_nil,
      removeFirst_cons, removeFirst_nil]
  have h1 : cleanProgramme [Elem.mk "icon" [] none []] = [] := by
    simp [cleanProgramme, stripPass, stripTags, processTag, findTag_cons, findTag_nil,
      removeFirst_cons, removeFirst_nil]
  have hp2 : optimize progTwoIcons
      = Elem.mk "programme" [] none [Elem.mk "icon" [] none []] := by
    rw [show progTwoIcons = Elem.mk "programme" [] none
        [Elem.mk "icon" [] none [], Elem.mk "icon" [] none []] from rfl, optimize_mk,
      if_pos rfl, List.map_cons, List.map_cons, List.map_nil, hicon, h2]
  have hp1 : optimize (Elem.mk "programme" [] none [Elem.mk "icon" [] none []])
      = Elem.mk "programme" [] none [] := by
    rw [optimize_mk, if_pos rfl, List.map_cons, List.map_nil, hicon, h1]
  constructor
  · rw [show treeTwoIcons = Elem.mk "tv" [] none [progTwoIcons] from rfl, optimize_mk,
      if_neg (by decide), List.map_cons, List.map_nil, hp2]
  · rw [show treeTwoIcons = Elem.mk "tv" [] none [progTwoIcons] from rfl, optimize_mk,
      if_neg (by decide), List.map_cons, List.map_nil, hp2, optimize_mk,
      if_neg (by decide), List.map_cons, List.map_nil, hp1]

/-- Claim C7 (witness): a concrete duplicate-free tree on which the amended
idempotence theorem applies. -/
theorem c7_idempotent_witness :
    OkTree (Elem.mk "tv" [] none
      [Elem.mk "programme" [] none [Elem.mk "icon" [] none []]]) ∧
    optimize (optimize (Elem.mk "tv" [] none
        [Elem.mk "programme" [] none [Elem.mk "icon" [] none []]]))
      = optimize (Elem.mk "tv" [] none
          [Elem.mk "programme" [] none [Elem.mk "icon" [] none []]]) := by
  have hicon : OkTree (Elem.mk "icon" [] none []) :=
    OkTree.mk _ _ _ _ (fun hp => absurd hp (by decide))
      (fun c hc => absurd hc (by simp))
  have hprog : OkTree (Elem.mk "programme" [] none [Elem.mk "icon" [] none []]) :=
    OkTree.mk _ _ _ _ (fun _ => by decide)
      (fun c hc => by
        rw [List.mem_singleton] at hc
        rw [hc]
        exact hicon)
  have hT : OkTree (Elem.mk "tv" [] none
      [Elem.mk "programme" [] none [Elem.mk "icon" [] none []]]) :=
    OkTree.mk _ _ _ _ (fun hp => absurd hp (by decide))
      (fun c hc => by
        rw [List.mem_singleton] at hc
        rw [hc]
        exact hprog)
  exact ⟨hT, c7_idempotent_amended _ hT⟩


end EPGV
